import Mathlib

/-!
Verification development for the BVecInterp interpolation operator
(src/src/bpmat/BVecInterp.c).

The embedding choices:
* the scalar type TacsScalar is modelled by the rationals, so that the
  normalisation `weights[j] /= w` is exact arithmetic;
* C arrays that the kernels only ever read or write through pointers are
  modelled by total functions out of the integers, and a single array store
  is the pointwise update `updG`;
* the staging buffers written by `BVecInterp::addInterp` are modelled by a
  packed memory (a function out of the integers) together with the `nums`,
  `rowp` and size bookkeeping exactly as in the source, so that the effect
  of ill-formed calls (negative `size`) on neighbouring rows is preserved;
* the helper routines that this repository only declares but does not ship
  (FElibrary::findInterval, FElibrary::uniqueSort, FElibrary::comparator
  via bsearch, matutils::SortAndUniquifyCSR, and the collaborator classes
  VarMap / BVec / BVecDistribute) are modelled from the spec, and each such
  definition carries a doc comment saying so.
-/

set_option maxRecDepth 10000

namespace BVI

/-- Pointwise update of an integer-indexed memory: a single array store
`m[i] = v` of the C source. -/
def updG {α : Type} (m : ℤ → α) (i : ℤ) (v : α) : ℤ → α :=
  fun q => if q = i then v else m q

/-! ## Mat-vec kernels (BVecInterp.c lines 1030-1272)

Every kernel in the source has the same loop skeleton

  for (i = 0; i < nrows; i++){
    int j = rowp[i]; int end = rowp[i+1];
    for (; j < end; j++){ <inner block>; w++; }
  }

and the kernels differ only in the inner block.  `jGo` and `rowsGo` embed
the two loops; the inner blocks are the `inner*` definitions below.  The
weight array is indexed by the number of `w++` increments performed. -/

/-- Inner block of the generic kernels: the loop
`for (k = 0; k < bsize; k++){ y[yb+k] += wv*x[xb+k]; }` with `cnt`
iterations remaining and current offset `k`. -/
def kGenGo (wv : ℚ) (yb xb : ℤ) (x : ℤ → ℚ) : ℕ → ℕ → (ℤ → ℚ) → (ℤ → ℚ)
  | 0, _, y => y
  | cnt+1, k, y =>
      kGenGo wv yb xb x cnt (k+1)
        (updG y (yb + (k : ℤ)) (y (yb + (k : ℤ)) + wv * x (xb + (k : ℤ))))

/-- Type of a kernel's inner block: arguments are the row index `i`, the
column value `cols[j]`, the current weight `w[0]`, the input array and the
output array. -/
abbrev InnerK := ℤ → ℤ → ℚ → (ℤ → ℚ) → (ℤ → ℚ) → (ℤ → ℚ)

/-- Column loop `for (; j < end; j++){ <inner>; w++; }` shared by every
kernel: `cnt` iterations remain, `j` is the current column index and `p`
is the offset of the weight pointer. -/
def jGo (inner : InnerK) (cols : ℤ → ℤ) (w : ℕ → ℚ) (x : ℤ → ℚ) (i : ℤ) :
    ℤ → ℕ → ℕ → (ℤ → ℚ) → (ℤ → ℚ)
  | _, 0, _, y => y
  | j, cnt+1, p, y => jGo inner cols w x i (j+1) cnt (p+1) (inner i (cols j) (w p) x y)

/-- Row loop `for (i = 0; i < nrows; i++)` shared by every kernel: `cnt`
rows remain starting at row `i`; `p` is the weight-pointer offset. -/
def rowsGo (inner : InnerK) (rowp : ℕ → ℤ) (cols : ℤ → ℤ) (w : ℕ → ℚ) (x : ℤ → ℚ) :
    ℕ → ℕ → ℕ → (ℤ → ℚ) → (ℤ → ℚ)
  | _, 0, _, y => y
  | i, cnt+1, p, y =>
      rowsGo inner rowp cols w x (i+1) cnt (p + (rowp (i+1) - rowp i).toNat)
        (jGo inner cols w x (i : ℤ) (rowp i) (rowp (i+1) - rowp i).toNat p y)

/-- Inner block of `BVecInterpMultAddGen`:
`for k in [0,bsize): y[bsize*i+k] += w[0]*x[bsize*cols[j]+k]`. -/
def innerGen (b : ℕ) : InnerK :=
  fun i c wv x y => kGenGo wv ((b : ℤ) * i) ((b : ℤ) * c) x b 0 y

/-- Inner block of `BVecInterpMultTransposeAddGen`:
`for k in [0,bsize): y[bsize*cols[j]+k] += w[0]*x[bsize*i+k]`. -/
def innerGenT (b : ℕ) : InnerK :=
  fun i c wv x y => kGenGo wv ((b : ℤ) * c) ((b : ℤ) * i) x b 0 y

/-- Inner block of `BVecInterpMultAdd1`: `y[i] += w[0]*x[cols[j]]`. -/
def inner1 : InnerK := fun i c wv x y => updG y i (y i + wv * x c)

/-- Inner block of `BVecInterpMultTransposeAdd1`: `y[cols[j]] += w[0]*x[i]`. -/
def inner1T : InnerK := fun i c wv x y => updG y c (y c + wv * x i)

/-- Inner block of `BVecInterpMultAdd2`. -/
def inner2 : InnerK := fun i c wv x y =>
  let y0 := updG y (2*i) (y (2*i) + wv * x (2*c))
  updG y0 (2*i+1) (y0 (2*i+1) + wv * x (2*c+1))

/-- Inner block of `BVecInterpMultTransposeAdd2`. -/
def inner2T : InnerK := fun i c wv x y =>
  let y0 := updG y (2*c) (y (2*c) + wv * x (2*i))
  updG y0 (2*c+1) (y0 (2*c+1) + wv * x (2*i+1))

/-- Inner block of `BVecInterpMultAdd3`. -/
def inner3 : InnerK := fun i c wv x y =>
  let y0 := updG y (3*i) (y (3*i) + wv * x (3*c))
  let y1 := updG y0 (3*i+1) (y0 (3*i+1) + wv * x (3*c+1))
  updG y1 (3*i+2) (y1 (3*i+2) + wv * x (3*c+2))

/-- Inner block of `BVecInterpMultTransposeAdd3`. -/
def inner3T : InnerK := fun i c wv x y =>
  let y0 := updG y (3*c) (y (3*c) + wv * x (3*i))
  let y1 := updG y0 (3*c+1) (y0 (3*c+1) + wv * x (3*i+1))
  updG y1 (3*c+2) (y1 (3*c+2) + wv * x (3*i+2))

/-- Inner block of `BVecInterpMultAdd5`. -/
def inner5 : InnerK := fun i c wv x y =>
  let y0 := updG y (5*i) (y (5*i) + wv * x (5*c))
  let y1 := updG y0 (5*i+1) (y0 (5*i+1) + wv * x (5*c+1))
  let y2 := updG y1 (5*i+2) (y1 (5*i+2) + wv * x (5*c+2))
  let y3 := updG y2 (5*i+3) (y2 (5*i+3) + wv * x (5*c+3))
  updG y3 (5*i+4) (y3 (5*i+4) + wv * x (5*c+4))

/-- Inner block of `BVecInterpMultTransposeAdd5`. -/
def inner5T : InnerK := fun i c wv x y =>
  let y0 := updG y (5*c) (y (5*c) + wv * x (5*i))
  let y1 := updG y0 (5*c+1) (y0 (5*c+1) + wv * x (5*i+1))
  let y2 := updG y1 (5*c+2) (y1 (5*c+2) + wv * x (5*i+2))
  let y3 := updG y2 (5*c+3) (y2 (5*c+3) + wv * x (5*i+3))
  updG y3 (5*c+4) (y3 (5*c+4) + wv * x (5*i+4))

/-- Inner block of `BVecInterpMultAdd6`. -/
def inner6 : InnerK := fun i c wv x y =>
  let y0 := updG y (6*i) (y (6*i) + wv * x (6*c))
  let y1 := updG y0 (6*i+1) (y0 (6*i+1) + wv * x (6*c+1))
  let y2 := updG y1 (6*i+2) (y1 (6*i+2) + wv * x (6*c+2))
  let y3 := updG y2 (6*i+3) (y2 (6*i+3) + wv * x (6*c+3))
  let y4 := updG y3 (6*i+4) (y3 (6*i+4) + wv * x (6*c+4))
  updG y4 (6*i+5) (y4 (6*i+5) + wv * x (6*c+5))

/-- Inner block of `BVecInterpMultTransposeAdd6`. -/
def inner6T : InnerK := fun i c wv x y =>
  let y0 := updG y (6*c) (y (6*c) + wv * x (6*i))
  let y1 := updG y0 (6*c+1) (y0 (6*c+1) + wv * x (6*i+1))
  let y2 := updG y1 (6*c+2) (y1 (6*c+2) + wv * x (6*i+2))
  let y3 := updG y2 (6*c+3) (y2 (6*c+3) + wv * x (6*i+3))
  let y4 := updG y3 (6*c+4) (y3 (6*c+4) + wv * x (6*i+4))
  updG y4 (6*c+5) (y4 (6*c+5) + wv * x (6*i+5))

/-- Generic mat-vec kernel for any block size (BVecInterp.c line 1033). -/
def BVecInterpMultAddGen (bsize nrows : ℕ) (rowp : ℕ → ℤ) (cols : ℤ → ℤ)
    (w : ℕ → ℚ) (x y : ℤ → ℚ) : ℤ → ℚ :=
  rowsGo (innerGen bsize) rowp cols w x 0 nrows 0 y

/-- Generic transpose kernel for any block size (line 1053). -/
def BVecInterpMultTransposeAddGen (bsize nrows : ℕ) (rowp : ℕ → ℤ) (cols : ℤ → ℤ)
    (w : ℕ → ℚ) (x y : ℤ → ℚ) : ℤ → ℚ :=
  rowsGo (innerGenT bsize) rowp cols w x 0 nrows 0 y

/-- Block-size 1 kernel (line 1073).  The `bsize` argument is taken but,
as in the source, ignored. -/
def BVecInterpMultAdd1 (_bsize nrows : ℕ) (rowp : ℕ → ℤ) (cols : ℤ → ℤ)
    (w : ℕ → ℚ) (x y : ℤ → ℚ) : ℤ → ℚ :=
  rowsGo inner1 rowp cols w x 0 nrows 0 y

/-- Block-size 1 transpose kernel (line 1091). -/
def BVecInterpMultTransposeAdd1 (_bsize nrows : ℕ) (rowp : ℕ → ℤ) (cols : ℤ → ℤ)
    (w : ℕ → ℚ) (x y : ℤ → ℚ) : ℤ → ℚ :=
  rowsGo inner1T rowp cols w x 0 nrows 0 y

/-- Block-size 2 kernel (line 1109). -/
def BVecInterpMultAdd2 (_bsize nrows : ℕ) (rowp : ℕ → ℤ) (cols : ℤ → ℤ)
    (w : ℕ → ℚ) (x y : ℤ → ℚ) : ℤ → ℚ :=
  rowsGo inner2 rowp cols w x 0 nrows 0 y

/-- Block-size 2 transpose kernel (line 1128). -/
def BVecInterpMultTransposeAdd2 (_bsize nrows : ℕ) (rowp : ℕ → ℤ) (cols : ℤ → ℤ)
    (w : ℕ → ℚ) (x y : ℤ → ℚ) : ℤ → ℚ :=
  rowsGo inner2T rowp cols w x 0 nrows 0 y

/-- Block-size 3 kernel (line 1147). -/
def BVecInterpMultAdd3 (_bsize nrows : ℕ) (rowp : ℕ → ℤ) (cols : ℤ → ℤ)
    (w : ℕ → ℚ) (x y : ℤ → ℚ) : ℤ → ℚ :=
  rowsGo inner3 rowp cols w x 0 nrows 0 y

/-- Block-size 3 transpose kernel (line 1167). -/
def BVecInterpMultTransposeAdd3 (_bsize nrows : ℕ) (rowp : ℕ → ℤ) (cols : ℤ → ℤ)
    (w : ℕ → ℚ) (x y : ℤ → ℚ) : ℤ → ℚ :=
  rowsGo inner3T rowp cols w x 0 nrows 0 y

/-- Block-size 5 kernel (line 1187). -/
def BVecInterpMultAdd5 (_bsize nrows : ℕ) (rowp : ℕ → ℤ) (cols : ℤ → ℤ)
    (w : ℕ → ℚ) (x y : ℤ → ℚ) : ℤ → ℚ :=
  rowsGo inner5 rowp cols w x 0 nrows 0 y

/-- Block-size 5 transpose kernel (line 1209). -/
def BVecInterpMultTransposeAdd5 (_bsize nrows : ℕ) (rowp : ℕ → ℤ) (cols : ℤ → ℤ)
    (w : ℕ → ℚ) (x y : ℤ → ℚ) : ℤ → ℚ :=
  rowsGo inner5T rowp cols w x 0 nrows 0 y

/-- Block-size 6 kernel (line 1231). -/
def BVecInterpMultAdd6 (_bsize nrows : ℕ) (rowp : ℕ → ℤ) (cols : ℤ → ℤ)
    (w : ℕ → ℚ) (x y : ℤ → ℚ) : ℤ → ℚ :=
  rowsGo inner6 rowp cols w x 0 nrows 0 y

/-- Block-size 6 transpose kernel (line 1254). -/
def BVecInterpMultTransposeAdd6 (_bsize nrows : ℕ) (rowp : ℕ → ℤ) (cols : ℤ → ℤ)
    (w : ℕ → ℚ) (x y : ℤ → ℚ) : ℤ → ℚ :=
  rowsGo inner6T rowp cols w x 0 nrows 0 y

/-- Type of a kernel function pointer (`multadd` / `multtransadd` members). -/
abbrev Kernel :=
  ℕ → ℕ → (ℕ → ℤ) → (ℤ → ℤ) → (ℕ → ℚ) → (ℤ → ℚ) → (ℤ → ℚ) → (ℤ → ℚ)

/-- Dispatch performed by the constructor switch (BVecInterp.c lines
151-179) for the forward kernel pointer `multadd`. -/
def selectMultAdd (bsize : ℕ) : Kernel :=
  if bsize = 1 then BVecInterpMultAdd1
  else if bsize = 2 then BVecInterpMultAdd2
  else if bsize = 3 then BVecInterpMultAdd3
  else if bsize = 5 then BVecInterpMultAdd5
  else if bsize = 6 then BVecInterpMultAdd6
  else BVecInterpMultAddGen

/-- Dispatch for the transpose kernel pointer `multtransadd`. -/
def selectMultTransAdd (bsize : ℕ) : Kernel :=
  if bsize = 1 then BVecInterpMultTransposeAdd1
  else if bsize = 2 then BVecInterpMultTransposeAdd2
  else if bsize = 3 then BVecInterpMultTransposeAdd3
  else if bsize = 5 then BVecInterpMultTransposeAdd5
  else if bsize = 6 then BVecInterpMultTransposeAdd6
  else BVecInterpMultTransposeAddGen

/-- Spec-side sum (follows the spec words, §4.4 "Inner kernel contract",
for comparison with the kernels): the total contribution accumulated at
output position `q` by `y[b·i+k] += w[j]·x[b·cols[j]+k]` over all
`i ∈ [0,nr)`, `j ∈ [rowp[i], rowp[i+1])`, `k ∈ [0,b)`. -/
def specMultAddSum (b nrows : ℕ) (rowp : ℕ → ℤ) (cols : ℤ → ℤ)
    (w : ℕ → ℚ) (x : ℤ → ℚ) (q : ℤ) : ℚ :=
  ∑ i ∈ Finset.range nrows, ∑ u ∈ Finset.range (rowp (i+1) - rowp i).toNat,
    ∑ k ∈ Finset.range b,
      if q = (b : ℤ) * i + k then w ((rowp i).toNat + u) * x ((b : ℤ) * cols (rowp i + u) + k) else 0

/-- Spec-side sum for the transpose contract
`y[b·cols[j]+k] += w[j]·x[b·i+k]` of §4.4. -/
def specMultTransposeSum (b nrows : ℕ) (rowp : ℕ → ℤ) (cols : ℤ → ℤ)
    (w : ℕ → ℚ) (x : ℤ → ℚ) (q : ℤ) : ℚ :=
  ∑ i ∈ Finset.range nrows, ∑ u ∈ Finset.range (rowp (i+1) - rowp i).toNat,
    ∑ k ∈ Finset.range b,
      if q = (b : ℤ) * cols (rowp i + u) + k then w ((rowp i).toNat + u) * x ((b : ℤ) * i + k) else 0

/-! ## Staging buffers (BVecInterp constructor and addInterp, lines 115-316)

The source keeps, for each of the on- and off-processor parts, arrays
`nums` (row output index), `rowp` (packed row pointers, `rowp[0] = 0`) and
packed `vars` / `weights` arrays.  `addInterp` appends
`rowp[size+1] = rowp[size] + size_arg` and then writes the `size_arg`
entries at positions `rowp[size] ..`.  The geometric reallocation only
copies data, so the model keeps an unbounded memory. -/

/-- Staging buffer: the bookkeeping of one of the `on_` / `off_` array
families of BVecInterp. -/
structure Staging where
  size : ℕ
  nums : List ℤ
  rowp : List ℤ
  vmem : ℤ → ℤ
  wmem : ℤ → ℚ

/-- Write the elements of a list at consecutive memory positions starting
at `p`, as the copy loop of `addInterp` does. -/
def writeSeq {α : Type} : (ℤ → α) → ℤ → List α → (ℤ → α)
  | m, _, [] => m
  | m, p, a :: t => writeSeq (updG m p a) (p+1) t

/-- The empty staging buffer set up by the constructor (`rowp[0] = 0`). -/
def emptyStaging : Staging :=
  { size := 0, nums := [], rowp := [0], vmem := fun _ => 0, wmem := fun _ => 0 }

/-- One `addInterp` append into a staging buffer (lines 264-271 resp.
307-314): store `num`, extend `rowp` by `rowp[size] + size_arg`, and copy
the first `size_arg` entries of `vars` / `w` into the packed arrays.  A
negative `size_arg` copies nothing (the C loop body never runs) but still
records the negative row length. -/
def stageRow (s : Staging) (num : ℤ) (w : List ℚ) (vars : List ℤ) (k : ℤ) : Staging :=
  { size := s.size + 1
    nums := s.nums ++ [num]
    rowp := s.rowp ++ [s.rowp.getD s.size 0 + k]
    vmem := writeSeq s.vmem (s.rowp.getD s.size 0)
      ((List.range k.toNat).map (fun t => vars.getD t 0))
    wmem := writeSeq s.wmem (s.rowp.getD s.size 0)
      ((List.range k.toNat).map (fun t => w.getD t 0)) }

/-- The pre-finalize state of a BVecInterp object on one rank: the owner
ranges `[outLo,outHi)` / `[inLo,inHi)` of this rank (from the VarMap
collaborators) and the two staging buffers. -/
structure PreOp where
  bsize : ℕ
  outLo : ℤ
  outHi : ℤ
  inLo : ℤ
  inHi : ℤ
  onS : Staging
  offS : Staging

/-- BVecInterp::addInterp (lines 227-316): a row whose output index is
owned by this rank is staged on-processor, any other row off-processor.
No validation and no error reporting happens here. -/
def addInterp (st : PreOp) (num : ℤ) (w : List ℚ) (vars : List ℤ) (size : ℤ) : PreOp :=
  if st.outLo ≤ num ∧ num < st.outHi then
    { st with onS := stageRow st.onS num w vars size }
  else
    { st with offS := stageRow st.offS num w vars size }

/-- One staged row as recovered from the packed arrays: the entries of
row `i` live at positions `rowp[i] .. rowp[i+1]-1` (none when the stored
length is not positive). -/
def stagedEntries (s : Staging) (i : ℕ) : List (ℤ × ℚ) :=
  (List.range ((s.rowp.getD (i+1) 0) - s.rowp.getD i 0).toNat).map
    (fun t : ℕ => (s.vmem (s.rowp.getD i 0 + (t:ℤ)), s.wmem (s.rowp.getD i 0 + (t:ℤ))))

/-- A staged interpolation row: output index and (input index, weight)
pairs, the unit of data moved by the redistribution of finalize. -/
structure IRow where
  num : ℤ
  entries : List (ℤ × ℚ)
deriving DecidableEq

/-- All rows held by a staging buffer, in staging order. -/
def stagedRows (s : Staging) : List IRow :=
  (List.range s.size).map (fun i => ⟨s.nums.getD i 0, stagedEntries s i⟩)

/-! ## CSR build and normalisation (BVecInterp::finalize, lines 337-824)

After the all-to-all redistribution, finalize works from the locally
staged rows (`on_*`) and the received rows (`in_*`).  Rows whose output
index is not locally owned are skipped with an error message (lines
535-541, 572-580, and silently in the later passes).  For each local
output row the entries are split by input ownership into the diagonal and
external parts, each part is sorted by column and deduplicated
(matutils::SortAndUniquifyCSR), the weights of equal columns are summed
through the bsearch accumulation loops (lines 677-747), the external
column table `ext_vars` is built by FElibrary::uniqueSort (line 764), the
diagonal columns are shifted to local indices and the external columns
replaced by their position in `ext_vars` (lines 771-780), and finally
every row is normalised by its total weight when that is nonzero
(lines 802-823).

The model below is row-wise: `rowEntries c i` is the concatenation, in
processing order (on-processor rows first, then received rows), of the
entries of every valid contribution to local row `i`, which is exactly
the content the two-pass cursor construction of the source places in row
`i` before sorting. -/

/-- The rows of `rows` whose output index lies in `[lo, hi)`; the other
rows are the ones finalize rejects. -/
def validRows (lo hi : ℤ) (rows : List IRow) : List IRow :=
  rows.filter (fun r => decide (lo ≤ r.num ∧ r.num < hi))

/-- Inputs of the local CSR build: the owner ranges of this rank together
with the locally staged rows and the rows received from the
redistribution. -/
structure FinCfg where
  outLo : ℤ
  outHi : ℤ
  inLo : ℤ
  inHi : ℤ
  onRows : List IRow
  inRows : List IRow

/-- Local number of output rows, `N = outMap->getDim()`.  Modelled from
the spec: VarMap is external; §3 fixes `N` as the local count of owned
output rows. -/
def FinCfg.N (c : FinCfg) : ℕ := (c.outHi - c.outLo).toNat

/-- All contributions finalize accepts, in processing order: valid
on-processor rows first, then valid received rows. -/
def contribs (c : FinCfg) : List IRow :=
  validRows c.outLo c.outHi c.onRows ++ validRows c.outLo c.outHi c.inRows

/-- Number of "local interpolation variable out of range" messages the
sizing pass of finalize prints (lines 539 and 576): one per rejected row
of either input list. -/
def errCount (c : FinCfg) : ℕ :=
  (c.onRows.filter (fun r => !(decide (c.outLo ≤ r.num ∧ r.num < c.outHi)))).length +
  (c.inRows.filter (fun r => !(decide (c.outLo ≤ r.num ∧ r.num < c.outHi)))).length

/-- Entries contributed to local output row `i`, in the order the
placement pass of finalize emits them. -/
def rowEntries (c : FinCfg) (i : ℕ) : List (ℤ × ℚ) :=
  (((contribs c).filter (fun r => decide (r.num = c.outLo + i))).map IRow.entries).flatten

/-- Ownership test for an input index, `inOwnerRange[rank] <= v <
inOwnerRange[rank+1]` (lines 523-524 etc.). -/
def isLocalIn (c : FinCfg) (v : ℤ) : Bool :=
  decide (c.inLo ≤ v ∧ v < c.inHi)

/-- Entries of row `i` routed to the diagonal part. -/
def localEntries (c : FinCfg) (i : ℕ) : List (ℤ × ℚ) :=
  (rowEntries c i).filter (fun e => isLocalIn c e.1)

/-- Entries of row `i` routed to the external (off-diagonal) part. -/
def extEntries (c : FinCfg) (i : ℕ) : List (ℤ × ℚ) :=
  (rowEntries c i).filter (fun e => !isLocalIn c e.1)

/-- Insert into a strictly sorted list, keeping it strictly sorted and
dropping the element when already present. -/
def insertUnique (a : ℤ) : List ℤ → List ℤ
  | [] => [a]
  | b :: t => if a < b then a :: b :: t else if a = b then b :: t else b :: insertUnique a t

/-- Modelled from the spec: the effect of matutils::SortAndUniquifyCSR on
one row and of FElibrary::uniqueSort (both declared in headers of this
repository but implemented outside it; spec §4.3 steps 5-6): sort
ascending and remove duplicates. -/
def sortDedup : List ℤ → List ℤ
  | [] => []
  | a :: t => insertUnique a (sortDedup t)

/-- Sum of the weights of the entries of `l` that name column `v` — the
amount the bsearch accumulation loops of finalize deposit at column `v`. -/
def fiberSum (l : List (ℤ × ℚ)) (v : ℤ) : ℚ :=
  ((l.filter (fun e => decide (e.1 = v))).map Prod.snd).sum

/-- Sorted, deduplicated global diagonal columns of row `i` (state of
`cols` row `i` after line 665). -/
def diagColsG (c : FinCfg) (i : ℕ) : List ℤ :=
  sortDedup ((localEntries c i).map Prod.fst)

/-- Sorted, deduplicated global external columns of row `i` (state of
`ext_cols` row `i` after line 666). -/
def extColsG (c : FinCfg) (i : ℕ) : List ℤ :=
  sortDedup ((extEntries c i).map Prod.fst)

/-- Pre-normalisation diagonal weights of row `i` (state of `weights`
after the accumulation loops, before line 802). -/
def preDiagW (c : FinCfg) (i : ℕ) : List ℚ :=
  (diagColsG c i).map (fiberSum (localEntries c i))

/-- Pre-normalisation external weights of row `i`. -/
def preExtW (c : FinCfg) (i : ℕ) : List ℚ :=
  (extColsG c i).map (fiberSum (extEntries c i))

/-- The row total `w` computed by the normalisation loop (lines 803-812). -/
def rowWSum (c : FinCfg) (i : ℕ) : ℚ :=
  (preDiagW c i).sum + (preExtW c i).sum

/-- Normalised diagonal weights of row `i` (lines 814-822): divide by the
row total when it is nonzero, otherwise leave the row unchanged. -/
def diagWRow (c : FinCfg) (i : ℕ) : List ℚ :=
  if rowWSum c i = 0 then preDiagW c i else (preDiagW c i).map (fun v => v / rowWSum c i)

/-- Normalised external weights of row `i`. -/
def extWRow (c : FinCfg) (i : ℕ) : List ℚ :=
  if rowWSum c i = 0 then preExtW c i else (preExtW c i).map (fun v => v / rowWSum c i)

/-- The table of distinct external input indices, sorted ascending
(`ext_vars`, built at lines 762-764 by uniqueSort over all external
columns). -/
def extVarsOf (c : FinCfg) : List ℤ :=
  sortDedup ((List.range c.N).map (extColsG c)).flatten

/-- Modelled from the spec: C `bsearch` with FElibrary::comparator over a
strictly increasing table returns the unique index holding the key
(§4.3 step 6).  On the sorted deduplicated tables it is applied to, this
linear search computes the same index. -/
def bsearchIdx (v : ℤ) : List ℤ → ℕ
  | [] => 0
  | a :: t => if v = a then 0 else bsearchIdx v t + 1

/-- Diagonal columns of row `i` in local index form
(`cols[j] -= inOwnerRange[mpiRank]`, lines 771-773). -/
def diagColsLoc (c : FinCfg) (i : ℕ) : List ℤ :=
  (diagColsG c i).map (fun v => v - c.inLo)

/-- External columns of row `i` replaced by their position in `ext_vars`
(lines 776-780). -/
def extColsIdx (c : FinCfg) (i : ℕ) : List ℤ :=
  (extColsG c i).map (fun v => (bsearchIdx v (extVarsOf c) : ℤ))

/-- Row-pointer array of a CSR matrix whose row `i` has `lens[i]`
entries: position `t` holds the number of entries before row `t`. -/
def csrRowp (lens : List ℕ) : List ℤ :=
  (List.range (lens.length + 1)).map (fun t => ((lens.take t).sum : ℤ))

/-- The finalised data of a BVecInterp object: the two CSR matrices and
the external index table, exactly the members the object keeps after
finalize returns. -/
structure FinMat where
  N : ℕ
  rowp : List ℤ
  cols : List ℤ
  weights : List ℚ
  ext_rowp : List ℤ
  ext_cols : List ℤ
  ext_weights : List ℚ
  ext_vars : List ℤ
deriving DecidableEq

/-- The CSR build of finalize, assembled row by row. -/
def finalizeRows (c : FinCfg) : FinMat :=
  { N := c.N
    rowp := csrRowp ((List.range c.N).map (fun i => (diagColsG c i).length))
    cols := ((List.range c.N).map (fun i => diagColsLoc c i)).flatten
    weights := ((List.range c.N).map (fun i => diagWRow c i)).flatten
    ext_rowp := csrRowp ((List.range c.N).map (fun i => (extColsG c i).length))
    ext_cols := ((List.range c.N).map (fun i => extColsIdx c i)).flatten
    ext_weights := ((List.range c.N).map (fun i => extWRow c i)).flatten
    ext_vars := extVarsOf c }

/-- Modelled from the spec: FElibrary::findInterval (declared in
FElibrary.h, implementation not in this repository) returns the index `r`
with `intv[r] <= x < intv[r+1]`, or an out-of-range index otherwise.
Specialised to a single rank, where the interval table is
`[outLo, outHi]`. -/
def findInterval1 (x lo hi : ℤ) : ℤ :=
  if lo ≤ x ∧ x < hi then 0 else -1

/-- The single-rank redistribution of finalize (lines 337-491): every
off-processor row with a valid destination index is sent — here, to this
rank itself — and the rest are dropped by the guard of line 385. -/
def singleRankCfg (st : PreOp) : FinCfg :=
  { outLo := st.outLo, outHi := st.outHi, inLo := st.inLo, inHi := st.inHi
    onRows := stagedRows st.onS
    inRows := (stagedRows st.offS).filter
      (fun r => decide (findInterval1 r.num st.outLo st.outHi = 0)) }

/-! ## The finalised operator and the apply operations (lines 837-998) -/

/-- Post-finalize view of a BVecInterp object: `fin = none` models
`vecDist == NULL`, the state before finalize has been called. -/
structure InterpOp where
  bsize : ℕ
  inLo : ℤ
  outLo : ℤ
  fin : Option FinMat

/-- Finalize on a single rank: fixes the CSR data and makes the apply
operations available. -/
def finalizeOp (st : PreOp) : InterpOp :=
  { bsize := st.bsize, inLo := st.inLo, outLo := st.outLo
    fin := some (finalizeRows (singleRankCfg st)) }

/-- The finalised operator obtained from an arbitrary CSR-build input. -/
def opOfCfg (c : FinCfg) (b : ℕ) : InterpOp :=
  { bsize := b, inLo := c.inLo, outLo := c.outLo, fin := some (finalizeRows c) }

/-- Modelled from the spec: BVec::getArray exposes the contiguous local
storage of a distributed vector (§6), i.e. the components of the owned
index range: local slot `q` is global slot `b·ownerBegin + q`. -/
def localView (b : ℕ) (lo : ℤ) (xg : ℤ → ℚ) : ℤ → ℚ :=
  fun q => xg ((b : ℤ) * lo + q)

/-- Modelled from the spec: the forward halo exchange
(BVecDistribute::beginForward / endForward, §4.4 step 2) fills the buffer
`x_ext` with the components of the input vector named by `ext_vars`:
slot `b·t+k` receives global slot `b·ext_vars[t]+k`. -/
def gatherExt (b : ℕ) (extv : List ℤ) (xg : ℤ → ℚ) : ℤ → ℚ :=
  fun q => xg ((b : ℤ) * extv.getD (q / b).toNat 0 + q % b)

/-- Row-pointer accessor, reading the stored `rowp` list as the kernels
read the C array. -/
def listF (l : List ℤ) : ℕ → ℤ := fun t => l.getD t 0

/-- Column-array accessor. -/
def colsF (l : List ℤ) : ℤ → ℤ := fun j => l.getD j.toNat 0

/-- Weight-array accessor. -/
def wF (l : List ℚ) : ℕ → ℚ := fun p => l.getD p 0

/-- BVecInterp::mult (lines 837-864).  Arguments: the global input vector
`xg`, the local output array `outv`, and the current halo buffer `xe`.
Returns (error printed, output array, halo buffer).  Before finalize
(`vecDist == NULL`) it prints an error and returns with nothing written;
otherwise it zeroes the output, fills the halo buffer, and runs the
selected kernel on the diagonal and then the external part. -/
def mult (op : InterpOp) (xg : ℤ → ℚ) (outv : ℤ → ℚ) (xe : ℤ → ℚ) :
    Bool × (ℤ → ℚ) × (ℤ → ℚ) :=
  match op.fin with
  | none => (true, outv, xe)
  | some fm =>
    let xin := localView op.bsize op.inLo xg
    let xext := gatherExt op.bsize fm.ext_vars xg
    let out0 : ℤ → ℚ := fun _ => 0
    let out1 := selectMultAdd op.bsize op.bsize fm.N (listF fm.rowp) (colsF fm.cols)
      (wF fm.weights) xin out0
    let out2 := selectMultAdd op.bsize op.bsize fm.N (listF fm.ext_rowp) (colsF fm.ext_cols)
      (wF fm.ext_weights) xext out1
    (false, out2, xext)

/-- BVecInterp::multAdd (lines 878-909).  `aliased` records whether the
add vector and the output vector are the same object (`outVec == addVec`);
when they are distinct the add vector is first copied into the output,
otherwise no copy happens and the output array itself is the base. -/
def multAdd (op : InterpOp) (xg : ℤ → ℚ) (addv outv : ℤ → ℚ) (aliased : Bool)
    (xe : ℤ → ℚ) : Bool × (ℤ → ℚ) × (ℤ → ℚ) :=
  match op.fin with
  | none => (true, outv, xe)
  | some fm =>
    let out0 := if aliased then outv else addv
    let xin := localView op.bsize op.inLo xg
    let xext := gatherExt op.bsize fm.ext_vars xg
    let out1 := selectMultAdd op.bsize op.bsize fm.N (listF fm.rowp) (colsF fm.cols)
      (wF fm.weights) xin out0
    let out2 := selectMultAdd op.bsize op.bsize fm.N (listF fm.ext_rowp) (colsF fm.ext_cols)
      (wF fm.ext_weights) xext out1
    (false, out2, xext)

/-- BVecInterp::multTranspose (lines 922-951).  Before finalize it prints
an error and returns with the output array and halo buffer untouched.
Otherwise it zeroes the output and the halo buffer, runs the transpose
kernel of the external part into the halo buffer (whose reverse
scatter-add is carried out by the external BVecDistribute object), and
the transpose kernel of the diagonal part into the output. -/
def multTranspose (op : InterpOp) (xg : ℤ → ℚ) (outv : ℤ → ℚ) (xe : ℤ → ℚ) :
    Bool × (ℤ → ℚ) × (ℤ → ℚ) :=
  match op.fin with
  | none => (true, outv, xe)
  | some fm =>
    let xin := localView op.bsize op.outLo xg
    let xe0 : ℤ → ℚ := fun _ => 0
    let xe1 := selectMultTransAdd op.bsize op.bsize fm.N (listF fm.ext_rowp)
      (colsF fm.ext_cols) (wF fm.ext_weights) xin xe0
    let out0 : ℤ → ℚ := fun _ => 0
    let out1 := selectMultTransAdd op.bsize op.bsize fm.N (listF fm.rowp)
      (colsF fm.cols) (wF fm.weights) xin out0
    (false, out1, xe1)

/-- BVecInterp::multTransposeAdd (lines 965-998): as multTranspose but
with the add vector copied first (when distinct from the output) and no
zeroing of the output. -/
def multTransposeAdd (op : InterpOp) (xg : ℤ → ℚ) (addv outv : ℤ → ℚ) (aliased : Bool)
    (xe : ℤ → ℚ) : Bool × (ℤ → ℚ) × (ℤ → ℚ) :=
  match op.fin with
  | none => (true, outv, xe)
  | some fm =>
    let out0 := if aliased then outv else addv
    let xin := localView op.bsize op.outLo xg
    let xe0 : ℤ → ℚ := fun _ => 0
    let xe1 := selectMultTransAdd op.bsize op.bsize fm.N (listF fm.ext_rowp)
      (colsF fm.ext_cols) (wF fm.ext_weights) xin xe0
    let out1 := selectMultTransAdd op.bsize op.bsize fm.N (listF fm.rowp)
      (colsF fm.cols) (wF fm.weights) xin out0
    (false, out1, xe1)

/-- Per-row value added by the diagonal kernel at block component `k` of
output row `i`: the dot product of the stored row weights with the input
at the stored (local) columns. -/
def applyRowDiag (c : FinCfg) (b : ℕ) (x : ℤ → ℚ) (i : ℕ) (k : ℤ) : ℚ :=
  ∑ u ∈ Finset.range (diagColsG c i).length,
    (diagWRow c i).getD u 0 * x ((b : ℤ) * (diagColsLoc c i).getD u 0 + k)

/-- Per-row value added by the external kernel at block component `k` of
output row `i`. -/
def applyRowExt (c : FinCfg) (b : ℕ) (x : ℤ → ℚ) (i : ℕ) (k : ℤ) : ℚ :=
  ∑ u ∈ Finset.range (extColsG c i).length,
    (extWRow c i).getD u 0 * x ((b : ℤ) * (extColsIdx c i).getD u 0 + k)

/-- Well-formedness of a staging buffer: the bookkeeping lists have the
expected lengths and the packed row pointers are nondecreasing (which
holds whenever every staged row had a nonnegative size argument). -/
def StagingWF (s : Staging) : Prop :=
  s.nums.length = s.size ∧ s.rowp.length = s.size + 1 ∧
    ∀ i, i < s.size → s.rowp.getD i 0 ≤ s.rowp.getD (i+1) 0

/-! ## Concrete instances used by the scenario claims and witnesses -/

/-- Freshly constructed single-rank operator of scenario S1: block size 1,
output range `[0,2)`, input range `[0,3)`. -/
def c1Pre : PreOp := ⟨1, 0, 2, 0, 3, emptyStaging, emptyStaging⟩

/-- The operator of S1 after `addRow(0, [1,1], [0,1], 2)` and
`addRow(1, [2], [2], 1)`. -/
def c1Staged : PreOp := addInterp (addInterp c1Pre 0 [1, 1] [0, 1] 2) 1 [2] [2] 1

/-- The finalised CSR data of scenario S1. -/
def c1Fin : FinMat := finalizeRows (singleRankCfg c1Staged)

/-- The input vector `[4, 6, 10]` of scenario S1 as a global function. -/
def c1x : ℤ → ℚ := fun q => if q = 0 then 4 else if q = 1 then 6 else if q = 2 then 10 else 0

/-- A single-rank configuration whose only row receives the two weights
`1` and `-1`, so its raw sum is zero although contributions exist. -/
def c2cex : FinCfg := ⟨0, 1, 0, 2, [⟨0, [(0, 1), (1, -1)]⟩], []⟩

/-- Single-rank operator state used by the C7 counterexample. -/
def c7z : PreOp := ⟨1, 0, 2, 0, 2, emptyStaging, emptyStaging⟩

/-- C7 counterexample, variant with the offending call: a valid row for
output 0, then `addRow(1, [], [], -2)` with negative size, then a valid
row for output 1.  The negative row length makes the third call overwrite
the staged entries of the first. -/
def c7a : PreOp :=
  addInterp (addInterp (addInterp c7z 0 [2, 3] [0, 1] 2) 1 [] [] (-2)) 1 [7] [1] 1

/-- C7 counterexample, same calls without the negative-size one. -/
def c7b : PreOp := addInterp (addInterp c7z 0 [2, 3] [0, 1] 2) 1 [7] [1] 1

/-- Concrete two-row single-rank configuration with positive weights,
used by several witnesses. -/
def cW : FinCfg := ⟨0, 2, 0, 3, [⟨0, [(0, 1), (1, 1)]⟩, ⟨1, [(2, 2)]⟩], []⟩

/-- An operator on which finalize has not been called. -/
def opNoFin : InterpOp := ⟨1, 0, 0, none⟩

/-! ## Properties of the sorting and summing helpers -/

theorem mem_insertUnique {a x : ℤ} {l : List ℤ} :
    a ∈ insertUnique x l ↔ a = x ∨ a ∈ l := by
  induction l with
  | nil => simp [insertUnique]
  | cons b t ih =>
    simp only [insertUnique]
    split
    · simp [List.mem_cons, or_assoc]
    · split
      · rename_i hxb
        subst hxb
        simp only [List.mem_cons]
        tauto
      · simp only [List.mem_cons, ih]
        tauto

theorem pairwise_insertUnique {x : ℤ} {l : List ℤ} (h : l.Pairwise (· < ·)) :
    (insertUnique x l).Pairwise (· < ·) := by
  induction l with
  | nil => simp [insertUnique]
  | cons b t ih =>
    rcases List.pairwise_cons.mp h with ⟨hb, ht⟩
    simp only [insertUnique]
    split
    · rename_i hxb
      refine List.pairwise_cons.mpr ⟨?_, h⟩
      intro a ha
      rcases List.mem_cons.mp ha with rfl | hat
      · exact hxb
      · exact lt_trans hxb (hb a hat)
    · split
      · exact h
      · rename_i hxb hne
        refine List.pairwise_cons.mpr ⟨?_, ih ht⟩
        intro a ha
        rcases mem_insertUnique.mp ha with rfl | hat
        · omega
        · exact hb a hat

theorem sortDedup_pairwise (l : List ℤ) : (sortDedup l).Pairwise (· < ·) := by
  induction l with
  | nil => simp [sortDedup]
  | cons a t ih => exact pairwise_insertUnique ih

theorem mem_sortDedup {a : ℤ} {l : List ℤ} : a ∈ sortDedup l ↔ a ∈ l := by
  induction l with
  | nil => simp [sortDedup]
  | cons b t ih => simp [sortDedup, mem_insertUnique, ih]

theorem sortDedup_nodup (l : List ℤ) : (sortDedup l).Nodup :=
  (sortDedup_pairwise l).imp (fun h => ne_of_lt h)

theorem sortDedup_toFinset (l : List ℤ) : (sortDedup l).toFinset = l.toFinset := by
  ext a
  simp [mem_sortDedup]

theorem sortDedup_length (l : List ℤ) : (sortDedup l).length = l.toFinset.card := by
  rw [← sortDedup_toFinset, List.toFinset_card_of_nodup (sortDedup_nodup l)]

theorem strictSorted_eq_of_mem_iff :
    ∀ {l1 l2 : List ℤ}, l1.Pairwise (· < ·) → l2.Pairwise (· < ·) →
      (∀ a, a ∈ l1 ↔ a ∈ l2) → l1 = l2 := by
  intro l1
  induction l1 with
  | nil =>
    intro l2 _ _ hm
    cases l2 with
    | nil => rfl
    | cons b t2 => exact absurd ((hm b).mpr (List.mem_cons_self b t2)) (List.not_mem_nil b)
  | cons a t1 ih =>
    intro l2 h1 h2 hm
    cases l2 with
    | nil => exact absurd ((hm a).mp (List.mem_cons_self a t1)) (List.not_mem_nil a)
    | cons b t2 =>
      rcases List.pairwise_cons.mp h1 with ⟨ha1, ht1⟩
      rcases List.pairwise_cons.mp h2 with ⟨hb2, ht2⟩
      have hab : a = b := by
        rcases List.mem_cons.mp ((hm a).mp (List.mem_cons_self a t1)) with h | h
        · exact h
        · rcases List.mem_cons.mp ((hm b).mpr (List.mem_cons_self b t2)) with h' | h'
          · omega
          · have := hb2 a h
            have := ha1 b h'
            omega
      subst hab
      have htm : ∀ v, v ∈ t1 ↔ v ∈ t2 := by
        intro v
        constructor
        · intro hv
          rcases List.mem_cons.mp ((hm v).mp (List.mem_cons_of_mem a hv)) with h | h
          · have := ha1 v hv
            omega
          · exact h
        · intro hv
          rcases List.mem_cons.mp ((hm v).mpr (List.mem_cons_of_mem a hv)) with h | h
          · have := hb2 v hv
            omega
          · exact h
      rw [ih ht1 ht2 htm]

theorem sum_map_div (l : List ℚ) (s : ℚ) :
    (l.map (fun v => v / s)).sum = l.sum / s := by
  induction l with
  | nil => simp
  | cons a t ih => simp [ih, add_div]

theorem list_sum_getD (l : List ℚ) :
    ∑ u ∈ Finset.range l.length, l.getD u 0 = l.sum := by
  induction l with
  | nil => simp
  | cons a t ih =>
    rw [List.length_cons, Finset.sum_range_succ']
    simp only [List.getD_cons_succ, List.getD_cons_zero, List.sum_cons]
    rw [ih]
    ring

theorem sum_filter_partition (l : List (ℤ × ℚ)) (p : (ℤ × ℚ) → Bool) :
    ((l.filter p).map Prod.snd).sum + ((l.filter (fun e => !p e)).map Prod.snd).sum
      = (l.map Prod.snd).sum := by
  induction l with
  | nil => simp
  | cons a t ih =>
    cases hp : p a <;> simp [List.filter_cons, hp, ← ih] <;> ring

theorem fiberSum_cons (e : ℤ × ℚ) (t : List (ℤ × ℚ)) (v : ℤ) :
    fiberSum (e :: t) v = (if e.1 = v then e.2 else 0) + fiberSum t v := by
  simp only [fiberSum, List.filter_cons]
  split
  · rename_i h
    simp only [List.map_cons, List.sum_cons]
    rw [if_pos (by simpa using h)]
  · rename_i h
    rw [if_neg (by simpa using h), zero_add]

theorem sum_fiberSum (l : List (ℤ × ℚ)) (S : Finset ℤ) (h : ∀ e ∈ l, e.1 ∈ S) :
    ∑ v ∈ S, fiberSum l v = (l.map Prod.snd).sum := by
  induction l with
  | nil => simp [fiberSum]
  | cons e t ih =>
    simp only [fiberSum_cons, Finset.sum_add_distrib]
    rw [Finset.sum_ite_eq S e.1 (fun _ => e.2), if_pos (h e (List.mem_cons_self e t)),
      ih (fun a ha => h a (List.mem_cons_of_mem e ha))]
    simp

theorem sum_map_sortDedup (l : List ℤ) (f : ℤ → ℚ) :
    ((sortDedup l).map f).sum = ∑ v ∈ l.toFinset, f v := by
  rw [← sortDedup_toFinset, List.sum_toFinset f (sortDedup_nodup l)]

theorem preDiagW_sum (c : FinCfg) (i : ℕ) :
    (preDiagW c i).sum = ((localEntries c i).map Prod.snd).sum := by
  unfold preDiagW diagColsG
  rw [sum_map_sortDedup]
  exact sum_fiberSum _ _ (fun e he => List.mem_toFinset.mpr (List.mem_map_of_mem Prod.fst he))

theorem preExtW_sum (c : FinCfg) (i : ℕ) :
    (preExtW c i).sum = ((extEntries c i).map Prod.snd).sum := by
  unfold preExtW extColsG
  rw [sum_map_sortDedup]
  exact sum_fiberSum _ _ (fun e he => List.mem_toFinset.mpr (List.mem_map_of_mem Prod.fst he))

theorem rowWSum_eq_raw (c : FinCfg) (i : ℕ) :
    rowWSum c i = ((rowEntries c i).map Prod.snd).sum := by
  unfold rowWSum
  rw [preDiagW_sum, preExtW_sum]
  exact sum_filter_partition _ _

theorem normalized_row_sum (c : FinCfg) (i : ℕ) (h : rowWSum c i ≠ 0) :
    (diagWRow c i).sum + (extWRow c i).sum = 1 := by
  unfold diagWRow extWRow
  rw [if_neg h, if_neg h, sum_map_div, sum_map_div, div_add_div_same]
  exact div_self h

section ConcreteEval

attribute [local semireducible] Rat.add Rat.mul Rat.sub Rat.inv

/-! ## Claim C1: single-rank end-to-end scenario -/

/-- C1: on one rank with block size 1, output size 2 and input size 3,
after `addRow(0, [1,1], [0,1], 2)` and `addRow(1, [2], [2], 1)` followed
by finalize, the diagonal CSR is `rowp = [0,2,3]`, `cols = [0,1,2]`,
`weights = [1/2, 1/2, 1]`, and mult maps the input vector `[4,6,10]` to
the output vector `[5, 10]`. -/
theorem claim1_single_rank_scenario :
    c1Fin.rowp = [0, 2, 3] ∧ c1Fin.cols = [0, 1, 2] ∧
    c1Fin.weights = [1/2, 1/2, 1] ∧
    (mult (finalizeOp c1Staged) c1x (fun _ => 37) (fun _ => 0)).1 = false ∧
    (mult (finalizeOp c1Staged) c1x (fun _ => 37) (fun _ => 0)).2.1 0 = 5 ∧
    (mult (finalizeOp c1Staged) c1x (fun _ => 37) (fun _ => 0)).2.1 1 = 10 := by
  refine ⟨by decide, by decide, by decide, by decide, by decide, by decide⟩

/-! ## Claim C2: row normalisation invariant -/

/-- C2 (amended): for every finalised operator and local row `i`, the sum
of the stored diagonal and off-diagonal weights of row `i` is 0 or 1, and
it is 0 exactly when the raw sum of the staged weights contributing to the
row is 0 — which happens in particular, but not only, when the row has no
contributions. -/
theorem claim2_row_sum_invariant (c : FinCfg) (i : ℕ) (_hi : i < c.N) :
    ((diagWRow c i).sum + (extWRow c i).sum = 0 ∨
      (diagWRow c i).sum + (extWRow c i).sum = 1) ∧
    ((diagWRow c i).sum + (extWRow c i).sum = 0 ↔
      ((rowEntries c i).map Prod.snd).sum = 0) ∧
    (rowEntries c i = [] → (diagWRow c i).sum + (extWRow c i).sum = 0) := by
  by_cases h : rowWSum c i = 0
  · have hz : (diagWRow c i).sum + (extWRow c i).sum = 0 := by
      unfold diagWRow extWRow
      rw [if_pos h, if_pos h]
      exact h
    refine ⟨Or.inl hz, ?_, fun _ => hz⟩
    rw [hz, ← rowWSum_eq_raw]
    exact ⟨fun _ => h, fun _ => rfl⟩
  · have h1 := normalized_row_sum c i h
    refine ⟨Or.inr h1, ?_, ?_⟩
    · rw [h1, ← rowWSum_eq_raw]
      constructor
      · intro h0
        exact absurd h0.symm (by norm_num)
      · intro h0
        exact absurd h0 h
    · intro he
      exfalso
      apply h
      rw [rowWSum_eq_raw, he]
      rfl

/-- C2 counterexample: the claim "the value 0 occurs only when row `i`
received no contributions at all" fails: a row whose staged weights are
`1` and `-1` has total stored weight 0 while it did receive
contributions. -/
theorem claim2_counterexample :
    (diagWRow c2cex 0).sum + (extWRow c2cex 0).sum = 0 ∧ rowEntries c2cex 0 ≠ [] := by
  refine ⟨by decide, by decide⟩

/-- C2 witness: the invariant instantiated on the concrete operator `cW`
at row 0. -/
theorem claim2_witness :
    0 < cW.N ∧
    (((diagWRow cW 0).sum + (extWRow cW 0).sum = 0 ∨
      (diagWRow cW 0).sum + (extWRow cW 0).sum = 1) ∧
    ((diagWRow cW 0).sum + (extWRow cW 0).sum = 0 ↔
      ((rowEntries cW 0).map Prod.snd).sum = 0) ∧
    (rowEntries cW 0 = [] → (diagWRow cW 0).sum + (extWRow cW 0).sum = 0)) :=
  ⟨by decide, claim2_row_sum_invariant cW 0 (by decide)⟩

/-! ## Claim C6: apply before finalize is rejected without side effects -/

/-- C6: on an operator whose finalize has not run (`vecDist == NULL`),
each of mult, multAdd, multTranspose and multTransposeAdd reports an
error at the call site and returns with the output vector and the halo
buffer unmodified — in both the aliased and the non-aliased variants of
the add operations, and without copying the add vector. -/
theorem claim6_before_finalize (op : InterpOp) (h : op.fin = none)
    (xg addv outv xe : ℤ → ℚ) :
    mult op xg outv xe = (true, outv, xe) ∧
    multAdd op xg addv outv false xe = (true, outv, xe) ∧
    multAdd op xg addv outv true xe = (true, outv, xe) ∧
    multTranspose op xg outv xe = (true, outv, xe) ∧
    multTransposeAdd op xg addv outv false xe = (true, outv, xe) ∧
    multTransposeAdd op xg addv outv true xe = (true, outv, xe) := by
  simp [mult, multAdd, multTranspose, multTransposeAdd, h]

/-- C6 witness: the guard behaviour on a concrete unfinalised operator. -/
theorem claim6_witness :
    opNoFin.fin = none ∧
    mult opNoFin (fun _ => 2) (fun _ => 3) (fun _ => 4)
      = (true, (fun _ => 3), (fun _ => 4)) :=
  ⟨rfl, (claim6_before_finalize opNoFin rfl (fun _ => 2) (fun _ => 5)
    (fun _ => 3) (fun _ => 4)).1⟩

end ConcreteEval

/-! ## Kernel equivalences: the block-specialised inner blocks agree with
the generic inner block at their block size -/

theorem kGenGo_succ (wv : ℚ) (yb xb : ℤ) (x : ℤ → ℚ) (cnt k : ℕ) (y : ℤ → ℚ) :
    kGenGo wv yb xb x (cnt+1) k y
      = kGenGo wv yb xb x cnt (k+1)
          (updG y (yb + (k : ℤ)) (y (yb + (k : ℤ)) + wv * x (xb + (k : ℤ)))) := rfl

theorem kGenGo_zero (wv : ℚ) (yb xb : ℤ) (x : ℤ → ℚ) (k : ℕ) (y : ℤ → ℚ) :
    kGenGo wv yb xb x 0 k y = y := rfl

theorem innerGen_one : innerGen 1 = inner1 := by
  funext i c wv x y q
  show kGenGo wv ((1:ℕ) * i) ((1:ℕ) * c) x (0+1) 0 y q = inner1 i c wv x y q
  rw [kGenGo_succ, kGenGo_zero]
  simp [updG, inner1]

theorem innerGen_two : innerGen 2 = inner2 := by
  funext i c wv x y q
  show kGenGo wv ((2:ℕ) * i) ((2:ℕ) * c) x (0+1+1) 0 y q = inner2 i c wv x y q
  rw [kGenGo_succ, kGenGo_succ, kGenGo_zero]
  simp [updG, inner2]

theorem innerGen_three : innerGen 3 = inner3 := by
  funext i c wv x y q
  show kGenGo wv ((3:ℕ) * i) ((3:ℕ) * c) x (0+1+1+1) 0 y q = inner3 i c wv x y q
  rw [kGenGo_succ, kGenGo_succ, kGenGo_succ, kGenGo_zero]
  simp [updG, inner3]

theorem innerGen_five : innerGen 5 = inner5 := by
  funext i c wv x y q
  show kGenGo wv ((5:ℕ) * i) ((5:ℕ) * c) x (0+1+1+1+1+1) 0 y q = inner5 i c wv x y q
  rw [kGenGo_succ, kGenGo_succ, kGenGo_succ, kGenGo_succ, kGenGo_succ, kGenGo_zero]
  simp [updG, inner5]

theorem innerGen_six : innerGen 6 = inner6 := by
  funext i c wv x y q
  show kGenGo wv ((6:ℕ) * i) ((6:ℕ) * c) x (0+1+1+1+1+1+1) 0 y q = inner6 i c wv x y q
  rw [kGenGo_succ, kGenGo_succ, kGenGo_succ, kGenGo_succ, kGenGo_succ, kGenGo_succ,
    kGenGo_zero]
  simp [updG, inner6]

theorem innerGenT_one : innerGenT 1 = inner1T := by
  funext i c wv x y q
  show kGenGo wv ((1:ℕ) * c) ((1:ℕ) * i) x (0+1) 0 y q = inner1T i c wv x y q
  rw [kGenGo_succ, kGenGo_zero]
  simp [updG, inner1T]

theorem innerGenT_two : innerGenT 2 = inner2T := by
  funext i c wv x y q
  show kGenGo wv ((2:ℕ) * c) ((2:ℕ) * i) x (0+1+1) 0 y q = inner2T i c wv x y q
  rw [kGenGo_succ, kGenGo_succ, kGenGo_zero]
  simp [updG, inner2T]

theorem innerGenT_three : innerGenT 3 = inner3T := by
  funext i c wv x y q
  show kGenGo wv ((3:ℕ) * c) ((3:ℕ) * i) x (0+1+1+1) 0 y q = inner3T i c wv x y q
  rw [kGenGo_succ, kGenGo_succ, kGenGo_succ, kGenGo_zero]
  simp [updG, inner3T]

theorem innerGenT_five : innerGenT 5 = inner5T := by
  funext i c wv x y q
  show kGenGo wv ((5:ℕ) * c) ((5:ℕ) * i) x (0+1+1+1+1+1) 0 y q = inner5T i c wv x y q
  rw [kGenGo_succ, kGenGo_succ, kGenGo_succ, kGenGo_succ, kGenGo_succ, kGenGo_zero]
  simp [updG, inner5T]

theorem innerGenT_six : innerGenT 6 = inner6T := by
  funext i c wv x y q
  show kGenGo wv ((6:ℕ) * c) ((6:ℕ) * i) x (0+1+1+1+1+1+1) 0 y q = inner6T i c wv x y q
  rw [kGenGo_succ, kGenGo_succ, kGenGo_succ, kGenGo_succ, kGenGo_succ, kGenGo_succ,
    kGenGo_zero]
  simp [updG, inner6T]

theorem multAdd1_eq_gen (bs nrows : ℕ) (rowp : ℕ → ℤ) (cols : ℤ → ℤ) (w : ℕ → ℚ)
    (x y : ℤ → ℚ) :
    BVecInterpMultAdd1 bs nrows rowp cols w x y = BVecInterpMultAddGen 1 nrows rowp cols w x y := by
  unfold BVecInterpMultAdd1 BVecInterpMultAddGen
  rw [innerGen_one]

theorem multAdd2_eq_gen (bs nrows : ℕ) (rowp : ℕ → ℤ) (cols : ℤ → ℤ) (w : ℕ → ℚ)
    (x y : ℤ → ℚ) :
    BVecInterpMultAdd2 bs nrows rowp cols w x y = BVecInterpMultAddGen 2 nrows rowp cols w x y := by
  unfold BVecInterpMultAdd2 BVecInterpMultAddGen
  rw [innerGen_two]

theorem multAdd3_eq_gen (bs nrows : ℕ) (rowp : ℕ → ℤ) (cols : ℤ → ℤ) (w : ℕ → ℚ)
    (x y : ℤ → ℚ) :
    BVecInterpMultAdd3 bs nrows rowp cols w x y = BVecInterpMultAddGen 3 nrows rowp cols w x y := by
  unfold BVecInterpMultAdd3 BVecInterpMultAddGen
  rw [innerGen_three]

theorem multAdd5_eq_gen (bs nrows : ℕ) (rowp : ℕ → ℤ) (cols : ℤ → ℤ) (w : ℕ → ℚ)
    (x y : ℤ → ℚ) :
    BVecInterpMultAdd5 bs nrows rowp cols w x y = BVecInterpMultAddGen 5 nrows rowp cols w x y := by
  unfold BVecInterpMultAdd5 BVecInterpMultAddGen
  rw [innerGen_five]

theorem multAdd6_eq_gen (bs nrows : ℕ) (rowp : ℕ → ℤ) (cols : ℤ → ℤ) (w : ℕ → ℚ)
    (x y : ℤ → ℚ) :
    BVecInterpMultAdd6 bs nrows rowp cols w x y = BVecInterpMultAddGen 6 nrows rowp cols w x y := by
  unfold BVecInterpMultAdd6 BVecInterpMultAddGen
  rw [innerGen_six]

theorem multTransAdd1_eq_gen (bs nrows : ℕ) (rowp : ℕ → ℤ) (cols : ℤ → ℤ) (w : ℕ → ℚ)
    (x y : ℤ → ℚ) :
    BVecInterpMultTransposeAdd1 bs nrows rowp cols w x y
      = BVecInterpMultTransposeAddGen 1 nrows rowp cols w x y := by
  unfold BVecInterpMultTransposeAdd1 BVecInterpMultTransposeAddGen
  rw [innerGenT_one]

theorem multTransAdd2_eq_gen (bs nrows : ℕ) (rowp : ℕ → ℤ) (cols : ℤ → ℤ) (w : ℕ → ℚ)
    (x y : ℤ → ℚ) :
    BVecInterpMultTransposeAdd2 bs nrows rowp cols w x y
      = BVecInterpMultTransposeAddGen 2 nrows rowp cols w x y := by
  unfold BVecInterpMultTransposeAdd2 BVecInterpMultTransposeAddGen
  rw [innerGenT_two]

theorem multTransAdd3_eq_gen (bs nrows : ℕ) (rowp : ℕ → ℤ) (cols : ℤ → ℤ) (w : ℕ → ℚ)
    (x y : ℤ → ℚ) :
    BVecInterpMultTransposeAdd3 bs nrows rowp cols w x y
      = BVecInterpMultTransposeAddGen 3 nrows rowp cols w x y := by
  unfold BVecInterpMultTransposeAdd3 BVecInterpMultTransposeAddGen
  rw [innerGenT_three]

theorem multTransAdd5_eq_gen (bs nrows : ℕ) (rowp : ℕ → ℤ) (cols : ℤ → ℤ) (w : ℕ → ℚ)
    (x y : ℤ → ℚ) :
    BVecInterpMultTransposeAdd5 bs nrows rowp cols w x y
      = BVecInterpMultTransposeAddGen 5 nrows rowp cols w x y := by
  unfold BVecInterpMultTransposeAdd5 BVecInterpMultTransposeAddGen
  rw [innerGenT_five]

theorem multTransAdd6_eq_gen (bs nrows : ℕ) (rowp : ℕ → ℤ) (cols : ℤ → ℤ) (w : ℕ → ℚ)
    (x y : ℤ → ℚ) :
    BVecInterpMultTransposeAdd6 bs nrows rowp cols w x y
      = BVecInterpMultTransposeAddGen 6 nrows rowp cols w x y := by
  unfold BVecInterpMultTransposeAdd6 BVecInterpMultTransposeAddGen
  rw [innerGenT_six]

/-- The kernel selected for block size `b`, called with its own block
size as the first argument (as every call site does), computes the same
function as the generic kernel at `b`. -/
theorem selectMultAdd_eq_gen (b nrows : ℕ) (rowp : ℕ → ℤ) (cols : ℤ → ℤ) (w : ℕ → ℚ)
    (x y : ℤ → ℚ) :
    selectMultAdd b b nrows rowp cols w x y = BVecInterpMultAddGen b nrows rowp cols w x y := by
  by_cases h1 : b = 1
  · subst h1
    simp only [selectMultAdd, if_pos rfl]
    exact multAdd1_eq_gen 1 nrows rowp cols w x y
  by_cases h2 : b = 2
  · subst h2
    rw [show selectMultAdd 2 = BVecInterpMultAdd2 from by norm_num [selectMultAdd]]
    exact multAdd2_eq_gen 2 nrows rowp cols w x y
  by_cases h3 : b = 3
  · subst h3
    rw [show selectMultAdd 3 = BVecInterpMultAdd3 from by norm_num [selectMultAdd]]
    exact multAdd3_eq_gen 3 nrows rowp cols w x y
  by_cases h5 : b = 5
  · subst h5
    rw [show selectMultAdd 5 = BVecInterpMultAdd5 from by norm_num [selectMultAdd]]
    exact multAdd5_eq_gen 5 nrows rowp cols w x y
  by_cases h6 : b = 6
  · subst h6
    rw [show selectMultAdd 6 = BVecInterpMultAdd6 from by norm_num [selectMultAdd]]
    exact multAdd6_eq_gen 6 nrows rowp cols w x y
  · simp [selectMultAdd, h1, h2, h3, h5, h6]

/-- Transpose analogue of `selectMultAdd_eq_gen`. -/
theorem selectMultTransAdd_eq_gen (b nrows : ℕ) (rowp : ℕ → ℤ) (cols : ℤ → ℤ) (w : ℕ → ℚ)
    (x y : ℤ → ℚ) :
    selectMultTransAdd b b nrows rowp cols w x y
      = BVecInterpMultTransposeAddGen b nrows rowp cols w x y := by
  by_cases h1 : b = 1
  · subst h1
    simp only [selectMultTransAdd, if_pos rfl]
    exact multTransAdd1_eq_gen 1 nrows rowp cols w x y
  by_cases h2 : b = 2
  · subst h2
    rw [show selectMultTransAdd 2 = BVecInterpMultTransposeAdd2 from by norm_num [selectMultTransAdd]]
    exact multTransAdd2_eq_gen 2 nrows rowp cols w x y
  by_cases h3 : b = 3
  · subst h3
    rw [show selectMultTransAdd 3 = BVecInterpMultTransposeAdd3 from by norm_num [selectMultTransAdd]]
    exact multTransAdd3_eq_gen 3 nrows rowp cols w x y
  by_cases h5 : b = 5
  · subst h5
    rw [show selectMultTransAdd 5 = BVecInterpMultTransposeAdd5 from by norm_num [selectMultTransAdd]]
    exact multTransAdd5_eq_gen 5 nrows rowp cols w x y
  by_cases h6 : b = 6
  · subst h6
    rw [show selectMultTransAdd 6 = BVecInterpMultTransposeAdd6 from by norm_num [selectMultTransAdd]]
    exact multTransAdd6_eq_gen 6 nrows rowp cols w x y
  · simp [selectMultTransAdd, h1, h2, h3, h5, h6]

/-! ## Claim C4: specialised kernels are equivalent to the generic ones -/

/-- C4: for every block size `b ∈ {1,2,3,5,6}` and every input, the
block-specialised kernels installed at construction produce output
identical to the generic kernels, in both the forward and the transpose
direction.  The `bs` argument mirrors the unused `bsize` parameter of the
specialised kernels. -/
theorem claim4_specialised_kernels (bs nrows : ℕ) (rowp : ℕ → ℤ) (cols : ℤ → ℤ)
    (w : ℕ → ℚ) (x y : ℤ → ℚ) :
    BVecInterpMultAdd1 bs nrows rowp cols w x y = BVecInterpMultAddGen 1 nrows rowp cols w x y ∧
    BVecInterpMultAdd2 bs nrows rowp cols w x y = BVecInterpMultAddGen 2 nrows rowp cols w x y ∧
    BVecInterpMultAdd3 bs nrows rowp cols w x y = BVecInterpMultAddGen 3 nrows rowp cols w x y ∧
    BVecInterpMultAdd5 bs nrows rowp cols w x y = BVecInterpMultAddGen 5 nrows rowp cols w x y ∧
    BVecInterpMultAdd6 bs nrows rowp cols w x y = BVecInterpMultAddGen 6 nrows rowp cols w x y ∧
    BVecInterpMultTransposeAdd1 bs nrows rowp cols w x y
      = BVecInterpMultTransposeAddGen 1 nrows rowp cols w x y ∧
    BVecInterpMultTransposeAdd2 bs nrows rowp cols w x y
      = BVecInterpMultTransposeAddGen 2 nrows rowp cols w x y ∧
    BVecInterpMultTransposeAdd3 bs nrows rowp cols w x y
      = BVecInterpMultTransposeAddGen 3 nrows rowp cols w x y ∧
    BVecInterpMultTransposeAdd5 bs nrows rowp cols w x y
      = BVecInterpMultTransposeAddGen 5 nrows rowp cols w x y ∧
    BVecInterpMultTransposeAdd6 bs nrows rowp cols w x y
      = BVecInterpMultTransposeAddGen 6 nrows rowp cols w x y :=
  ⟨multAdd1_eq_gen bs nrows rowp cols w x y, multAdd2_eq_gen bs nrows rowp cols w x y,
    multAdd3_eq_gen bs nrows rowp cols w x y, multAdd5_eq_gen bs nrows rowp cols w x y,
    multAdd6_eq_gen bs nrows rowp cols w x y, multTransAdd1_eq_gen bs nrows rowp cols w x y,
    multTransAdd2_eq_gen bs nrows rowp cols w x y, multTransAdd3_eq_gen bs nrows rowp cols w x y,
    multTransAdd5_eq_gen bs nrows rowp cols w x y, multTransAdd6_eq_gen bs nrows rowp cols w x y⟩

/-! ## Accumulation lemmas for the kernels -/

theorem kGenGo_acc (wv : ℚ) (yb xb : ℤ) (x : ℤ → ℚ) :
    ∀ (cnt k : ℕ) (y : ℤ → ℚ) (q : ℤ),
      kGenGo wv yb xb x cnt k y q
        = y q + ∑ d ∈ Finset.range cnt,
            (if q = yb + ((k + d : ℕ) : ℤ) then wv * x (xb + ((k + d : ℕ) : ℤ)) else 0) := by
  intro cnt
  induction cnt with
  | zero =>
    intro k y q
    simp [kGenGo]
  | succ n ih =>
    intro k y q
    rw [kGenGo_succ, ih]
    have hupd : updG y (yb + (k:ℤ)) (y (yb + (k:ℤ)) + wv * x (xb + (k:ℤ))) q
        = y q + (if q = yb + (k:ℤ) then wv * x (xb + (k:ℤ)) else 0) := by
      unfold updG
      by_cases h : q = yb + (k:ℤ)
      · rw [if_pos h, if_pos h, h]
      · rw [if_neg h, if_neg h, add_zero]
    rw [hupd, Finset.sum_range_succ']
    have hidx : ∀ d : ℕ, k + 1 + d = k + (d + 1) := by omega
    simp only [hidx, Nat.add_zero]
    ring

theorem jGo_acc (inner : InnerK) (cols : ℤ → ℤ) (w : ℕ → ℚ) (x : ℤ → ℚ)
    (g : ℤ → ℤ → ℚ → ℤ → ℚ)
    (hI : ∀ (i c : ℤ) (wv : ℚ) (y : ℤ → ℚ) (q : ℤ), inner i c wv x y q = y q + g i c wv q)
    (i : ℤ) :
    ∀ (cnt : ℕ) (j : ℤ) (p : ℕ) (y : ℤ → ℚ) (q : ℤ),
      jGo inner cols w x i j cnt p y q
        = y q + ∑ t ∈ Finset.range cnt, g i (cols (j + (t:ℤ))) (w (p + t)) q := by
  intro cnt
  induction cnt with
  | zero =>
    intro j p y q
    simp [jGo]
  | succ n ih =>
    intro j p y q
    show jGo inner cols w x i (j+1) n (p+1) (inner i (cols j) (w p) x y) q = _
    rw [ih, hI, Finset.sum_range_succ']
    have h1 : ∀ t : ℕ, j + 1 + (t:ℤ) = j + ((t+1 : ℕ) : ℤ) := by
      intro t
      push_cast
      ring
    have h2 : ∀ t : ℕ, p + 1 + t = p + (t + 1) := by omega
    simp only [h1, h2, Nat.cast_zero, add_zero, Nat.add_zero]
    ring

theorem rowsGo_acc (inner : InnerK) (rowp : ℕ → ℤ) (cols : ℤ → ℤ) (w : ℕ → ℚ) (x : ℤ → ℚ)
    (g : ℤ → ℤ → ℚ → ℤ → ℚ)
    (hI : ∀ (i c : ℤ) (wv : ℚ) (y : ℤ → ℚ) (q : ℤ), inner i c wv x y q = y q + g i c wv q) :
    ∀ (cnt i p : ℕ) (y : ℤ → ℚ) (q : ℤ),
      rowsGo inner rowp cols w x i cnt p y q
        = y q + ∑ t ∈ Finset.range cnt,
            ∑ u ∈ Finset.range (rowp (i+t+1) - rowp (i+t)).toNat,
              g ((i+t : ℕ) : ℤ) (cols (rowp (i+t) + (u:ℤ)))
                (w (p + (∑ s ∈ Finset.range t, (rowp (i+s+1) - rowp (i+s)).toNat) + u)) q := by
  intro cnt
  induction cnt with
  | zero =>
    intro i p y q
    simp [rowsGo]
  | succ n ih =>
    intro i p y q
    show rowsGo inner rowp cols w x (i+1) n (p + (rowp (i+1) - rowp i).toNat)
      (jGo inner cols w x (i:ℤ) (rowp i) (rowp (i+1) - rowp i).toNat p y) q = _
    rw [ih, jGo_acc inner cols w x g hI, Finset.sum_range_succ']
    simp only [Finset.sum_range_succ', Finset.range_zero, Finset.sum_empty, Nat.add_zero,
      Nat.zero_add, zero_add, add_zero]
    simp only [Nat.add_assoc, Nat.add_comm, Nat.add_left_comm]
    ring

/-- A canonical row-pointer array is nonnegative up to `nrows`. -/
theorem rowp_nonneg (nrows : ℕ) (rowp : ℕ → ℤ) (h0 : rowp 0 = 0)
    (hm : ∀ t, t < nrows → rowp t ≤ rowp (t+1)) :
    ∀ t, t ≤ nrows → 0 ≤ rowp t := by
  intro t
  induction t with
  | zero =>
    intro _
    omega
  | succ n ih =>
    intro h
    have h1 := ih (by omega)
    have h2 := hm n (by omega)
    omega

/-- Under the canonical row-pointer hypotheses, the running weight-pointer
offset at the start of row `t` equals `rowp[t]`. -/
theorem rowp_offsets_eq (nrows : ℕ) (rowp : ℕ → ℤ) (h0 : rowp 0 = 0)
    (hm : ∀ t, t < nrows → rowp t ≤ rowp (t+1)) :
    ∀ t, t ≤ nrows → (∑ s ∈ Finset.range t, (rowp (s+1) - rowp s).toNat) = (rowp t).toNat := by
  intro t
  induction t with
  | zero =>
    intro _
    simp [h0]
  | succ n ih =>
    intro hle
    have h1 := ih (by omega)
    have h2 : rowp n ≤ rowp (n+1) := hm n (by omega)
    have h3 : 0 ≤ rowp n := rowp_nonneg nrows rowp h0 hm n (by omega)
    rw [Finset.sum_range_succ, h1]
    omega

/-- The generic forward kernel satisfies the spec's inner-kernel
contract: it adds to each output position exactly the accumulated sum
`specMultAddSum` (canonical row pointers assumed). -/
theorem multAddGen_acc (b nrows : ℕ) (rowp : ℕ → ℤ) (cols : ℤ → ℤ) (w : ℕ → ℚ)
    (x y : ℤ → ℚ) (h0 : rowp 0 = 0) (hm : ∀ t, t < nrows → rowp t ≤ rowp (t+1)) (q : ℤ) :
    BVecInterpMultAddGen b nrows rowp cols w x y q
      = y q + specMultAddSum b nrows rowp cols w x q := by
  have hI : ∀ (i c : ℤ) (wv : ℚ) (y0 : ℤ → ℚ) (q0 : ℤ),
      innerGen b i c wv x y0 q0
        = y0 q0 + ∑ k ∈ Finset.range b,
            (if q0 = (b:ℤ) * i + (k:ℤ) then wv * x ((b:ℤ) * c + (k:ℤ)) else 0) := by
    intro i c wv y0 q0
    unfold innerGen
    rw [kGenGo_acc]
    simp
  unfold BVecInterpMultAddGen
  rw [rowsGo_acc (innerGen b) rowp cols w x _ hI]
  unfold specMultAddSum
  congr 1
  apply Finset.sum_congr rfl
  intro t ht
  have hoff := rowp_offsets_eq nrows rowp h0 hm t (le_of_lt (Finset.mem_range.mp ht))
  simp only [Nat.zero_add, zero_add, hoff]

/-- The generic transpose kernel satisfies the spec's transpose
inner-kernel contract. -/
theorem multTransposeAddGen_acc (b nrows : ℕ) (rowp : ℕ → ℤ) (cols : ℤ → ℤ) (w : ℕ → ℚ)
    (x y : ℤ → ℚ) (h0 : rowp 0 = 0) (hm : ∀ t, t < nrows → rowp t ≤ rowp (t+1)) (q : ℤ) :
    BVecInterpMultTransposeAddGen b nrows rowp cols w x y q
      = y q + specMultTransposeSum b nrows rowp cols w x q := by
  have hI : ∀ (i c : ℤ) (wv : ℚ) (y0 : ℤ → ℚ) (q0 : ℤ),
      innerGenT b i c wv x y0 q0
        = y0 q0 + ∑ k ∈ Finset.range b,
            (if q0 = (b:ℤ) * c + (k:ℤ) then wv * x ((b:ℤ) * i + (k:ℤ)) else 0) := by
    intro i c wv y0 q0
    unfold innerGenT
    rw [kGenGo_acc]
    simp
  unfold BVecInterpMultTransposeAddGen
  rw [rowsGo_acc (innerGenT b) rowp cols w x _ hI]
  unfold specMultTransposeSum
  congr 1
  apply Finset.sum_congr rfl
  intro t ht
  have hoff := rowp_offsets_eq nrows rowp h0 hm t (le_of_lt (Finset.mem_range.mp ht))
  simp only [Nat.zero_add, zero_add, hoff]

/-! ## Claim C10: block sizes outside {1,2,3,5,6} fall back to the
generic kernels and still satisfy the inner-kernel contract -/

/-- C10: for every block size outside `{1,2,3,5,6}` the constructor
dispatch installs the generic kernels, and (for canonical row pointers)
the installed kernels satisfy the spec's inner-kernel contract
`y[b·i+k] += w[j]·x[b·cols[j]+k]` and its transpose, so block-size
support is not limited to the five specialised sizes. -/
theorem claim10_generic_blocksize (b : ℕ) (h1 : b ≠ 1) (h2 : b ≠ 2) (h3 : b ≠ 3)
    (h5 : b ≠ 5) (h6 : b ≠ 6) :
    selectMultAdd b = BVecInterpMultAddGen ∧
    selectMultTransAdd b = BVecInterpMultTransposeAddGen ∧
    ∀ (nrows : ℕ) (rowp : ℕ → ℤ) (cols : ℤ → ℤ) (w : ℕ → ℚ) (x y : ℤ → ℚ),
      rowp 0 = 0 → (∀ t, t < nrows → rowp t ≤ rowp (t+1)) →
      (∀ q, selectMultAdd b b nrows rowp cols w x y q
          = y q + specMultAddSum b nrows rowp cols w x q) ∧
      (∀ q, selectMultTransAdd b b nrows rowp cols w x y q
          = y q + specMultTransposeSum b nrows rowp cols w x q) := by
  have e1 : selectMultAdd b = BVecInterpMultAddGen := by
    simp [selectMultAdd, h1, h2, h3, h5, h6]
  have e2 : selectMultTransAdd b = BVecInterpMultTransposeAddGen := by
    simp [selectMultTransAdd, h1, h2, h3, h5, h6]
  refine ⟨e1, e2, ?_⟩
  intro nrows rowp cols w x y hc0 hcm
  constructor
  · intro q
    rw [e1]
    exact multAddGen_acc b nrows rowp cols w x y hc0 hcm q
  · intro q
    rw [e2]
    exact multTransposeAddGen_acc b nrows rowp cols w x y hc0 hcm q

/-- C10 witness: block size 4 with a concrete one-row CSR. -/
theorem claim10_witness :
    (4:ℕ) ≠ 1 ∧
    selectMultAdd 4 4 1 (fun t => (t:ℤ)) (fun _ => 0) (fun _ => 2) (fun _ => 3)
        (fun _ => 5) 0
      = 5 + specMultAddSum 4 1 (fun t => (t:ℤ)) (fun _ => 0) (fun _ => 2) (fun _ => 3) 0 :=
  ⟨by decide,
    ((claim10_generic_blocksize 4 (by decide) (by decide) (by decide) (by decide)
        (by decide)).2.2 1 (fun t => (t:ℤ)) (fun _ => 0) (fun _ => 2) (fun _ => 3)
        (fun _ => 5) (by norm_num) (fun t _ => by push_cast; omega)).1 0⟩

/-! ## Properties of the modelled bsearch and of list access -/

theorem bsearchIdx_getD {v : ℤ} : ∀ {l : List ℤ}, v ∈ l → l.getD (bsearchIdx v l) 0 = v := by
  intro l
  induction l with
  | nil => intro h; cases h
  | cons a t ih =>
    intro h
    by_cases hv : v = a
    · simp [bsearchIdx, hv]
    · have hvt : v ∈ t := by
        rcases List.mem_cons.mp h with h' | h'
        · exact absurd h' hv
        · exact h'
      rw [show bsearchIdx v (a :: t) = bsearchIdx v t + 1 from by simp [bsearchIdx, hv],
        List.getD_cons_succ]
      exact ih hvt

theorem bsearchIdx_lt_length {v : ℤ} : ∀ {l : List ℤ}, v ∈ l → bsearchIdx v l < l.length := by
  intro l
  induction l with
  | nil => intro h; cases h
  | cons a t ih =>
    intro h
    by_cases hv : v = a
    · simp [bsearchIdx, hv]
    · have hvt : v ∈ t := by
        rcases List.mem_cons.mp h with h' | h'
        · exact absurd h' hv
        · exact h'
      simp [bsearchIdx, hv]
      exact ih hvt

theorem bsearchIdx_strictMono {a b : ℤ} :
    ∀ {l : List ℤ}, l.Pairwise (· < ·) → a ∈ l → b ∈ l → a < b →
      bsearchIdx a l < bsearchIdx b l := by
  intro l
  induction l with
  | nil => intro _ ha; cases ha
  | cons h t ih =>
    intro hp ha hb hab
    rcases List.pairwise_cons.mp hp with ⟨hh, ht⟩
    by_cases hva : a = h
    · have hbh : b ≠ h := by omega
      have hbt : b ∈ t := by
        rcases List.mem_cons.mp hb with h' | h'
        · exact absurd h' hbh
        · exact h'
      simp [bsearchIdx, hva, hbh]
    · have hat : a ∈ t := by
        rcases List.mem_cons.mp ha with h' | h'
        · exact absurd h' hva
        · exact h'
      have hha : h < a := hh a hat
      have hbh : b ≠ h := by omega
      have hbt : b ∈ t := by
        rcases List.mem_cons.mp hb with h' | h'
        · exact absurd h' hbh
        · exact h'
      simp [bsearchIdx, hva, hbh]
      exact ih ht hat hbt hab

theorem getD_map_rat (f : ℤ → ℚ) (l : List ℤ) (j : ℕ) (h : j < l.length) :
    (l.map f).getD j 0 = f (l.getD j 0) := by
  rw [List.getD_eq_getElem (l.map f) 0 (by simpa using h), List.getD_eq_getElem l 0 h,
    List.getElem_map]

theorem getD_map_int (f : ℤ → ℤ) (l : List ℤ) (j : ℕ) (h : j < l.length) :
    (l.map f).getD j 0 = f (l.getD j 0) := by
  rw [List.getD_eq_getElem (l.map f) 0 (by simpa using h), List.getD_eq_getElem l 0 h,
    List.getElem_map]

theorem getD_mem_int (l : List ℤ) (j : ℕ) (h : j < l.length) : l.getD j 0 ∈ l := by
  rw [List.getD_eq_getElem l 0 h]
  exact List.getElem_mem h

/-- Restricting the entry list to a predicate that holds on every entry
naming column `v` does not change the per-column weight sum. -/
theorem fiberSum_filter (l : List (ℤ × ℚ)) (p : (ℤ × ℚ) → Bool) (v : ℤ)
    (hv : ∀ e ∈ l, e.1 = v → p e) :
    fiberSum (l.filter p) v = fiberSum l v := by
  induction l with
  | nil => rfl
  | cons a t ih =>
    have iht := ih (fun e he h => hv e (List.mem_cons_of_mem a he) h)
    by_cases hpa : p a
    · rw [List.filter_cons_of_pos hpa, fiberSum_cons, fiberSum_cons, iht]
    · have ha1 : a.1 ≠ v := fun h => hpa (hv a (List.mem_cons_self a t) h)
      rw [List.filter_cons_of_neg (by simpa using hpa), fiberSum_cons, if_neg ha1, zero_add, iht]

/-! ## Permutation invariance of the CSR build in the received rows -/

theorem rowEntries_perm (c : FinCfg) (rows2 : List IRow) (hp : c.inRows.Perm rows2) (i : ℕ) :
    (rowEntries { c with inRows := rows2 } i).Perm (rowEntries c i) := by
  unfold rowEntries contribs validRows
  exact ((((hp.symm.filter _).append_left _).filter _).map IRow.entries).flatten

theorem localEntries_perm (c : FinCfg) (rows2 : List IRow) (hp : c.inRows.Perm rows2) (i : ℕ) :
    (localEntries { c with inRows := rows2 } i).Perm (localEntries c i) :=
  (rowEntries_perm c rows2 hp i).filter _

theorem extEntries_perm (c : FinCfg) (rows2 : List IRow) (hp : c.inRows.Perm rows2) (i : ℕ) :
    (extEntries { c with inRows := rows2 } i).Perm (extEntries c i) :=
  (rowEntries_perm c rows2 hp i).filter _

theorem fiberSum_perm {l1 l2 : List (ℤ × ℚ)} (hp : l1.Perm l2) (v : ℤ) :
    fiberSum l1 v = fiberSum l2 v :=
  ((hp.filter _).map Prod.snd).sum_eq

theorem sortDedup_perm_eq {l1 l2 : List ℤ} (hp : l1.Perm l2) :
    sortDedup l1 = sortDedup l2 :=
  strictSorted_eq_of_mem_iff (sortDedup_pairwise l1) (sortDedup_pairwise l2)
    (fun a => by rw [mem_sortDedup, mem_sortDedup]; exact ⟨fun h => hp.mem_iff.mp h,
      fun h => hp.mem_iff.mpr h⟩)

theorem diagColsG_perm (c : FinCfg) (rows2 : List IRow) (hp : c.inRows.Perm rows2) (i : ℕ) :
    diagColsG { c with inRows := rows2 } i = diagColsG c i :=
  sortDedup_perm_eq ((localEntries_perm c rows2 hp i).map Prod.fst)

theorem extColsG_perm (c : FinCfg) (rows2 : List IRow) (hp : c.inRows.Perm rows2) (i : ℕ) :
    extColsG { c with inRows := rows2 } i = extColsG c i :=
  sortDedup_perm_eq ((extEntries_perm c rows2 hp i).map Prod.fst)

theorem preDiagW_perm (c : FinCfg) (rows2 : List IRow) (hp : c.inRows.Perm rows2) (i : ℕ) :
    preDiagW { c with inRows := rows2 } i = preDiagW c i := by
  unfold preDiagW
  rw [diagColsG_perm c rows2 hp i]
  exact List.map_congr_left (fun a _ => fiberSum_perm (localEntries_perm c rows2 hp i) a)

theorem preExtW_perm (c : FinCfg) (rows2 : List IRow) (hp : c.inRows.Perm rows2) (i : ℕ) :
    preExtW { c with inRows := rows2 } i = preExtW c i := by
  unfold preExtW
  rw [extColsG_perm c rows2 hp i]
  exact List.map_congr_left (fun a _ => fiberSum_perm (extEntries_perm c rows2 hp i) a)

theorem rowWSum_perm (c : FinCfg) (rows2 : List IRow) (hp : c.inRows.Perm rows2) (i : ℕ) :
    rowWSum { c with inRows := rows2 } i = rowWSum c i := by
  unfold rowWSum
  rw [preDiagW_perm c rows2 hp i, preExtW_perm c rows2 hp i]

theorem diagWRow_perm (c : FinCfg) (rows2 : List IRow) (hp : c.inRows.Perm rows2) (i : ℕ) :
    diagWRow { c with inRows := rows2 } i = diagWRow c i := by
  unfold diagWRow
  rw [preDiagW_perm c rows2 hp i, rowWSum_perm c rows2 hp i]

theorem extWRow_perm (c : FinCfg) (rows2 : List IRow) (hp : c.inRows.Perm rows2) (i : ℕ) :
    extWRow { c with inRows := rows2 } i = extWRow c i := by
  unfold extWRow
  rw [preExtW_perm c rows2 hp i, rowWSum_perm c rows2 hp i]

theorem extVarsOf_perm (c : FinCfg) (rows2 : List IRow) (hp : c.inRows.Perm rows2) :
    extVarsOf { c with inRows := rows2 } = extVarsOf c := by
  unfold extVarsOf
  have hN : FinCfg.N { c with inRows := rows2 } = c.N := rfl
  rw [hN]
  congr 1
  congr 1
  exact List.map_congr_left (fun i _ => extColsG_perm c rows2 hp i)

theorem diagColsLoc_perm (c : FinCfg) (rows2 : List IRow) (hp : c.inRows.Perm rows2) (i : ℕ) :
    diagColsLoc { c with inRows := rows2 } i = diagColsLoc c i := by
  unfold diagColsLoc
  rw [diagColsG_perm c rows2 hp i]

theorem extColsIdx_perm (c : FinCfg) (rows2 : List IRow) (hp : c.inRows.Perm rows2) (i : ℕ) :
    extColsIdx { c with inRows := rows2 } i = extColsIdx c i := by
  unfold extColsIdx
  rw [extColsG_perm c rows2 hp i, extVarsOf_perm c rows2 hp]

theorem finalizeRows_perm_inRows (c : FinCfg) (rows2 : List IRow) (hp : c.inRows.Perm rows2) :
    finalizeRows { c with inRows := rows2 } = finalizeRows c := by
  unfold finalizeRows
  have hN : FinCfg.N { c with inRows := rows2 } = c.N := rfl
  simp only [hN, diagColsG_perm c rows2 hp, diagColsLoc_perm c rows2 hp,
    diagWRow_perm c rows2 hp, extColsG_perm c rows2 hp, extColsIdx_perm c rows2 hp,
    extWRow_perm c rows2 hp, extVarsOf_perm c rows2 hp]

/-! ## Claim C3: per-row sortedness, uniqueness, and duplicate summing -/

/-- C3: after finalize every row of both CSR matrices is strictly sorted
by (stored) column and duplicate free; the pre-normalisation weight
stored at position `j` of a row equals the sum of the weights of all
accepted staged contributions naming that `(outGlobal, inGlobal)` pair;
and the whole finalised structure is unchanged under any permutation of
the received rows (arrival order independence). -/
theorem claim3_sorted_unique_summed (c : FinCfg) (i : ℕ) (hi : i < c.N) :
    (diagColsLoc c i).Pairwise (· < ·) ∧ (extColsIdx c i).Pairwise (· < ·) ∧
    (diagColsLoc c i).Nodup ∧ (extColsIdx c i).Nodup ∧
    (∀ j, j < (diagColsG c i).length →
      (preDiagW c i).getD j 0 = fiberSum (rowEntries c i) ((diagColsG c i).getD j 0)) ∧
    (∀ j, j < (extColsG c i).length →
      (preExtW c i).getD j 0 = fiberSum (rowEntries c i) ((extColsG c i).getD j 0)) ∧
    (∀ rows2, c.inRows.Perm rows2 → finalizeRows { c with inRows := rows2 } = finalizeRows c) := by
  have hd : (diagColsLoc c i).Pairwise (· < ·) := by
    unfold diagColsLoc
    rw [List.pairwise_map]
    exact (sortDedup_pairwise _).imp (fun h => by omega)
  have hmemext : ∀ v ∈ extColsG c i, v ∈ extVarsOf c := by
    intro v hv
    unfold extVarsOf
    rw [mem_sortDedup, List.mem_flatten]
    exact ⟨extColsG c i, List.mem_map_of_mem (extColsG c) (List.mem_range.mpr hi), hv⟩
  have he : (extColsIdx c i).Pairwise (· < ·) := by
    unfold extColsIdx
    rw [List.pairwise_map]
    refine (sortDedup_pairwise _).imp_of_mem ?_
    intro a b ha hb hab
    have := bsearchIdx_strictMono (sortDedup_pairwise _) (hmemext a ha) (hmemext b hb) hab
    exact_mod_cast this
  refine ⟨hd, he, hd.imp (fun h => ne_of_lt h), he.imp (fun h => ne_of_lt h), ?_, ?_, ?_⟩
  · intro j hj
    unfold preDiagW
    rw [getD_map_rat _ _ _ hj]
    have hcol : (diagColsG c i).getD j 0 ∈ (localEntries c i).map Prod.fst := by
      rw [← mem_sortDedup]
      exact getD_mem_int _ _ hj
    rcases List.mem_map.mp hcol with ⟨e, hel, hef⟩
    have hloc : isLocalIn c ((diagColsG c i).getD j 0) = true := by
      rw [← hef]
      exact (List.mem_filter.mp hel).2
    exact fiberSum_filter (rowEntries c i) (fun e => isLocalIn c e.1)
      ((diagColsG c i).getD j 0)
      (fun e0 _ h0 => by show isLocalIn c e0.1 = true; rw [h0]; exact hloc)
  · intro j hj
    unfold preExtW
    rw [getD_map_rat _ _ _ hj]
    have hcol : (extColsG c i).getD j 0 ∈ (extEntries c i).map Prod.fst := by
      rw [← mem_sortDedup]
      exact getD_mem_int _ _ hj
    rcases List.mem_map.mp hcol with ⟨e, hel, hef⟩
    have hloc : (!isLocalIn c ((extColsG c i).getD j 0)) = true := by
      rw [← hef]
      exact (List.mem_filter.mp hel).2
    exact fiberSum_filter (rowEntries c i) (fun e => !isLocalIn c e.1)
      ((extColsG c i).getD j 0)
      (fun e0 _ h0 => by show (!isLocalIn c e0.1) = true; rw [h0]; exact hloc)
  · intro rows2 hp
    exact finalizeRows_perm_inRows c rows2 hp

/-- C3 witness: instantiated on the concrete configuration `cW`, row 0. -/
theorem claim3_witness :
    0 < cW.N ∧
    ((diagColsLoc cW 0).Pairwise (· < ·) ∧ (extColsIdx cW 0).Pairwise (· < ·) ∧
    (diagColsLoc cW 0).Nodup ∧ (extColsIdx cW 0).Nodup ∧
    (∀ j, j < (diagColsG cW 0).length →
      (preDiagW cW 0).getD j 0 = fiberSum (rowEntries cW 0) ((diagColsG cW 0).getD j 0)) ∧
    (∀ j, j < (extColsG cW 0).length →
      (preExtW cW 0).getD j 0 = fiberSum (rowEntries cW 0) ((extColsG cW 0).getD j 0)) ∧
    (∀ rows2, cW.inRows.Perm rows2 →
      finalizeRows { cW with inRows := rows2 } = finalizeRows cW)) :=
  ⟨by decide, claim3_sorted_unique_summed cW 0 (by decide)⟩

/-! ## Claim C9: external index table invariant -/

/-- C9: after finalize the external table `ext_vars` is strictly
increasing; its length equals the number of distinct non-local input
globals referenced by the off-diagonal part; every stored external column
is the position of its original global index in the table (so indexing
the table at the stored value recovers the global index); and every
stored diagonal column is the global index shifted by the local input
offset. -/
theorem claim9_ext_index_table (c : FinCfg) (i : ℕ) (hi : i < c.N) :
    (extVarsOf c).Pairwise (· < ·) ∧
    (extVarsOf c).length
      = (((List.range c.N).map (fun i0 => (extEntries c i0).map Prod.fst)).flatten).toFinset.card ∧
    (∀ j, j < (extColsG c i).length →
      (extVarsOf c).getD ((extColsIdx c i).getD j 0).toNat 0 = (extColsG c i).getD j 0) ∧
    (∀ j, j < (diagColsG c i).length →
      (diagColsLoc c i).getD j 0 = (diagColsG c i).getD j 0 - c.inLo) := by
  refine ⟨sortDedup_pairwise _, ?_, ?_, ?_⟩
  · unfold extVarsOf
    rw [sortDedup_length]
    congr 1
    ext a
    simp only [List.mem_toFinset, List.mem_flatten, List.mem_map]
    constructor
    · rintro ⟨l, ⟨i0, hi0, rfl⟩, hal⟩
      exact ⟨(extEntries c i0).map Prod.fst, ⟨i0, hi0, rfl⟩, (mem_sortDedup).mp hal⟩
    · rintro ⟨l, ⟨i0, hi0, rfl⟩, hal⟩
      exact ⟨extColsG c i0, ⟨i0, hi0, rfl⟩, (mem_sortDedup).mpr hal⟩
  · intro j hj
    unfold extColsIdx
    rw [getD_map_int _ _ _ hj, Int.toNat_natCast]
    apply bsearchIdx_getD
    unfold extVarsOf
    rw [mem_sortDedup, List.mem_flatten]
    exact ⟨extColsG c i, List.mem_map_of_mem (extColsG c) (List.mem_range.mpr hi),
      getD_mem_int _ _ hj⟩
  · intro j hj
    unfold diagColsLoc
    rw [getD_map_int _ _ _ hj]

/-- C9 witness: instantiated on the concrete configuration `cW`, row 0. -/
theorem claim9_witness :
    0 < cW.N ∧
    ((extVarsOf cW).Pairwise (· < ·) ∧
    (extVarsOf cW).length
      = (((List.range cW.N).map (fun i0 => (extEntries cW i0).map Prod.fst)).flatten).toFinset.card ∧
    (∀ j, j < (extColsG cW 0).length →
      (extVarsOf cW).getD ((extColsIdx cW 0).getD j 0).toNat 0 = (extColsG cW 0).getD j 0) ∧
    (∀ j, j < (diagColsG cW 0).length →
      (diagColsLoc cW 0).getD j 0 = (diagColsG cW 0).getD j 0 - cW.inLo)) :=
  ⟨by decide, claim9_ext_index_table cW 0 (by decide)⟩

/-! ## Staging-buffer lemmas for claim C7 -/

theorem map_range_congr {β : Type} (f g : ℕ → β) (n : ℕ) (h : ∀ t, t < n → f t = g t) :
    (List.range n).map f = (List.range n).map g :=
  List.map_congr_left (fun t ht => h t (List.mem_range.mp ht))

theorem writeSeq_frame {α : Type} (l : List α) :
    ∀ (m : ℤ → α) (p q : ℤ), q < p → writeSeq m p l q = m q := by
  induction l with
  | nil =>
    intro m p q _
    rfl
  | cons a t ih =>
    intro m p q hq
    show writeSeq (updG m p a) (p+1) t q = m q
    rw [ih (updG m p a) (p+1) q (by omega)]
    unfold updG
    rw [if_neg (by omega)]

theorem stagingWF_rowp_mono (s : Staging) (h : StagingWF s) :
    ∀ (d i : ℕ), i + d ≤ s.size → s.rowp.getD i 0 ≤ s.rowp.getD (i + d) 0 := by
  intro d
  induction d with
  | zero =>
    intro i _
    exact le_refl _
  | succ n ih =>
    intro i hle
    have h1 := ih i (by omega)
    have h2 := h.2.2 (i + n) (by omega)
    calc s.rowp.getD i 0 ≤ s.rowp.getD (i+n) 0 := h1
      _ ≤ s.rowp.getD (i+n+1) 0 := h2
      _ = s.rowp.getD (i + (n+1)) 0 := by rw [Nat.add_assoc]

theorem stagedEntries_stageRow (s : Staging) (hwf : StagingWF s) (num : ℤ) (w : List ℚ)
    (vars : List ℤ) (k : ℤ) (i : ℕ) (hi : i < s.size) :
    stagedEntries (stageRow s num w vars k) i = stagedEntries s i := by
  have hlen := hwf.2.1
  unfold stagedEntries stageRow
  dsimp only
  rw [List.getD_append _ _ _ _ (by omega), List.getD_append _ _ _ _ (by omega)]
  apply map_range_congr
  intro t htl
  have hbound : s.rowp.getD i 0 + (t:ℤ) < s.rowp.getD s.size 0 := by
    have hmono := stagingWF_rowp_mono s hwf (s.size - (i+1)) (i+1) (by omega)
    have heq : (i+1) + (s.size - (i+1)) = s.size := by omega
    rw [heq] at hmono
    omega
  rw [writeSeq_frame _ _ _ _ hbound, writeSeq_frame _ _ _ _ hbound]

theorem stagedRows_stageRow (s : Staging) (hwf : StagingWF s) (num : ℤ) (w : List ℚ)
    (vars : List ℤ) (k : ℤ) :
    stagedRows (stageRow s num w vars k)
      = stagedRows s ++ [⟨num, stagedEntries (stageRow s num w vars k) s.size⟩] := by
  have hnum := hwf.1
  unfold stagedRows
  show (List.range (s.size + 1)).map _ = _
  rw [List.range_succ, List.map_append]
  congr 1
  · apply List.map_congr_left
    intro i hi
    have hi' := List.mem_range.mp hi
    have h1 : (stageRow s num w vars k).nums.getD i 0 = s.nums.getD i 0 := by
      unfold stageRow
      dsimp only
      exact List.getD_append _ _ _ _ (by omega)
    rw [h1, stagedEntries_stageRow s hwf num w vars k i hi']
  · have h2 : (stageRow s num w vars k).nums.getD s.size 0 = num := by
      unfold stageRow
      dsimp only
      rw [List.getD_append_right _ _ _ _ (by omega)]
      simp [hnum]
    simp only [List.map_cons, List.map_nil]
    rw [h2]

/-! ## Claim C7: invalid addRow arguments -/

section ConcreteEvalC7

attribute [local semireducible] Rat.add Rat.mul Rat.sub Rat.inv

/-- C7 counterexample: the claimed behaviour fails on both counts.  The
sequence of `c7a` contains `addRow(1, [], [], -2)` (negative `k`):
nothing is logged (`errCount = 0`, and `addInterp` itself prints
nothing), and removing the offending call (`c7b`) changes the finalised
weights — so the offending row is not harmlessly discarded: its negative
stored length makes the following `addRow` overwrite entries of the first
staged row. -/
theorem claim7_counterexample :
    (finalizeRows (singleRankCfg c7a)).weights ≠ (finalizeRows (singleRankCfg c7b)).weights ∧
    errCount (singleRankCfg c7a) = 0 := by
  constructor
  · decide
  · decide

/-- C7 (amended, out-of-range part): an `addRow` whose `outGlobal` is out
of range is staged to the off-processor buffer, and finalize on a single
rank silently drops it: the finalised CSR matrices are identical to those
obtained without the call, and no error message is printed for it; the
operator never aborts.  (For negative `k` the source instead stores a
negative row length that can corrupt neighbouring staged rows, see the
counterexample.) -/
theorem claim7_out_of_range_discarded (st : PreOp) (num : ℤ) (w : List ℚ) (vars : List ℤ)
    (k : ℤ) (hwf : StagingWF st.offS) (hout : ¬(st.outLo ≤ num ∧ num < st.outHi)) :
    finalizeRows (singleRankCfg (addInterp st num w vars k))
      = finalizeRows (singleRankCfg st) ∧
    errCount (singleRankCfg (addInterp st num w vars k)) = errCount (singleRankCfg st) := by
  have haddi : addInterp st num w vars k = { st with offS := stageRow st.offS num w vars k } := by
    unfold addInterp
    rw [if_neg hout]
  have hcfg : singleRankCfg { st with offS := stageRow st.offS num w vars k }
      = singleRankCfg st := by
    unfold singleRankCfg
    dsimp only
    rw [stagedRows_stageRow st.offS hwf num w vars k, List.filter_append]
    have hdrop : List.filter
        (fun r => decide (findInterval1 r.num st.outLo st.outHi = 0))
        [(⟨num, stagedEntries (stageRow st.offS num w vars k) st.offS.size⟩ : IRow)] = [] := by
      simp [findInterval1, hout]
    rw [hdrop, List.append_nil]
  rw [haddi, hcfg]
  exact ⟨rfl, rfl⟩

/-- C7 witness: a concrete out-of-range `addRow(5, [1], [0], 1)` on the
operator `c7z` whose output range is `[0,2)`. -/
theorem claim7_witness :
    StagingWF c7z.offS ∧ ¬((c7z.outLo ≤ 5) ∧ (5:ℤ) < c7z.outHi) ∧
    (finalizeRows (singleRankCfg (addInterp c7z 5 [1] [0] 1))
        = finalizeRows (singleRankCfg c7z) ∧
      errCount (singleRankCfg (addInterp c7z 5 [1] [0] 1)) = errCount (singleRankCfg c7z)) :=
  ⟨⟨rfl, rfl, fun i h => absurd h (Nat.not_lt_zero i)⟩, by decide,
    claim7_out_of_range_discarded c7z 5 [1] [0] 1
      ⟨rfl, rfl, fun i h => absurd h (Nat.not_lt_zero i)⟩ (by decide)⟩

end ConcreteEvalC7

/-! ## Flat CSR arrays built from per-row lists -/

theorem getD_map_range {β : Type} (f : ℕ → β) (n i : ℕ) (d : β) (h : i < n) :
    ((List.range n).map f).getD i d = f i := by
  rw [List.getD_eq_getElem _ _ (by simpa using h), List.getElem_map, List.getElem_range]

theorem csrRowp_getD (lens : List ℕ) (t : ℕ) (h : t ≤ lens.length) :
    (csrRowp lens).getD t 0 = ((lens.take t).sum : ℤ) := by
  unfold csrRowp
  exact getD_map_range _ _ _ _ (by omega)

theorem take_sum_succ (lens : List ℕ) (t : ℕ) (h : t < lens.length) :
    (lens.take (t+1)).sum = (lens.take t).sum + lens.getD t 0 := by
  rw [List.take_succ, List.sum_append, List.getElem?_eq_getElem h,
    List.getD_eq_getElem lens 0 h]
  simp

theorem csrRowp_zero (lens : List ℕ) : listF (csrRowp lens) 0 = 0 := by
  unfold listF
  rw [csrRowp_getD lens 0 (Nat.zero_le _)]
  simp

theorem csrRowp_mono (lens : List ℕ) :
    ∀ t, t < lens.length → listF (csrRowp lens) t ≤ listF (csrRowp lens) (t+1) := by
  intro t ht
  unfold listF
  rw [csrRowp_getD lens t (by omega), csrRowp_getD lens (t+1) (by omega),
    take_sum_succ lens t ht]
  push_cast
  omega

theorem csrRowp_rlen (lens : List ℕ) (t : ℕ) (ht : t < lens.length) :
    (listF (csrRowp lens) (t+1) - listF (csrRowp lens) t).toNat = lens.getD t 0 := by
  unfold listF
  rw [csrRowp_getD lens t (by omega), csrRowp_getD lens (t+1) (by omega),
    take_sum_succ lens t ht]
  push_cast
  omega

theorem csrRowp_toNat (lens : List ℕ) (t : ℕ) (ht : t ≤ lens.length) :
    (listF (csrRowp lens) t).toNat = (lens.take t).sum := by
  unfold listF
  rw [csrRowp_getD lens t ht]
  exact Int.toNat_natCast _

theorem flatten_getD {α : Type} (d : α) :
    ∀ (rows : List (List α)) (i : ℕ), i < rows.length →
      ∀ u, u < (rows.getD i []).length →
        rows.flatten.getD ((((rows.map List.length).take i).sum) + u) d
          = (rows.getD i []).getD u d := by
  intro rows
  induction rows with
  | nil =>
    intro i hi
    exact absurd hi (by simp)
  | cons r t ih =>
    intro i hi u hu
    cases i with
    | zero =>
      simp only [List.map_cons, List.take_zero, List.sum_nil, Nat.zero_add,
        List.flatten_cons, List.getD_cons_zero] at hu ⊢
      exact List.getD_append _ _ _ _ (by simpa using hu)
    | succ n =>
      simp only [List.map_cons, List.take_succ_cons, List.sum_cons, List.flatten_cons,
        List.getD_cons_succ] at hu ⊢
      rw [Nat.add_assoc, List.getD_append_right _ _ _ _ (by omega)]
      have := ih n (by simpa using hi) u hu
      simpa using this

/-! ## Evaluating the installed kernel on a CSR built from per-row lists -/

theorem specMultAddSum_at (b nrows : ℕ) (rowp : ℕ → ℤ) (cols : ℤ → ℤ) (w : ℕ → ℚ)
    (x : ℤ → ℚ) (i0 k0 : ℕ) (hi : i0 < nrows) (hk : k0 < b) :
    specMultAddSum b nrows rowp cols w x ((b:ℤ) * i0 + k0)
      = ∑ u ∈ Finset.range (rowp (i0+1) - rowp i0).toNat,
          w ((rowp i0).toNat + u) * x ((b:ℤ) * cols (rowp i0 + u) + k0) := by
  have hb0 : 0 < b := lt_of_le_of_lt (Nat.zero_le _) hk
  have hcond : ∀ (i k : ℕ), k < b →
      (((b:ℤ) * i0 + k0 = (b:ℤ) * i + k) ↔ (i = i0 ∧ k = k0)) := by
    intro i k hkb
    constructor
    · intro he
      have hN : b * i0 + k0 = b * i + k := by exact_mod_cast he
      have h1 : (b * i0 + k0) / b = i0 := by
        rw [Nat.mul_add_div hb0, Nat.div_eq_of_lt hk, Nat.add_zero]
      have h2 : (b * i + k) / b = i := by
        rw [Nat.mul_add_div hb0, Nat.div_eq_of_lt hkb, Nat.add_zero]
      rw [hN] at h1
      have hii : i = i0 := by omega
      subst hii
      have hkk : k = k0 := by omega
      exact ⟨rfl, hkk⟩
    · rintro ⟨rfl, rfl⟩
      rfl
  unfold specMultAddSum
  have hinner : ∀ i ∈ Finset.range nrows, ∀ u : ℕ,
      (∑ k ∈ Finset.range b,
        if (b:ℤ) * i0 + k0 = (b:ℤ) * i + k
        then w ((rowp i).toNat + u) * x ((b:ℤ) * cols (rowp i + u) + k) else 0)
      = if i = i0 then w ((rowp i).toNat + u) * x ((b:ℤ) * cols (rowp i + u) + k0) else 0 := by
    intro i _ u
    by_cases hii : i = i0
    · subst hii
      rw [if_pos rfl]
      have hrw : ∀ k ∈ Finset.range b,
          (if (b:ℤ) * i + k0 = (b:ℤ) * i + k
           then w ((rowp i).toNat + u) * x ((b:ℤ) * cols (rowp i + u) + k) else 0)
          = (if k = k0 then w ((rowp i).toNat + u) * x ((b:ℤ) * cols (rowp i + u) + k) else 0) := by
        intro k hkm
        by_cases hkk : k = k0
        · subst hkk
          rw [if_pos rfl, if_pos rfl]
        · rw [if_neg hkk, if_neg (fun hc => hkk ((hcond i k (Finset.mem_range.mp hkm)).mp hc).2)]
      rw [Finset.sum_congr rfl hrw, Finset.sum_ite_eq' (Finset.range b) k0
        (fun k => w ((rowp i).toNat + u) * x ((b:ℤ) * cols (rowp i + u) + k)),
        if_pos (Finset.mem_range.mpr hk)]
    · rw [if_neg hii]
      refine Finset.sum_eq_zero (fun k hkm => ?_)
      exact if_neg (fun hc => hii ((hcond i k (Finset.mem_range.mp hkm)).mp hc).1)
  rw [Finset.sum_congr rfl (fun i hi0 => Finset.sum_congr rfl (fun u _ => hinner i hi0 u))]
  have houter : ∀ i ∈ Finset.range nrows,
      (∑ u ∈ Finset.range (rowp (i+1) - rowp i).toNat,
        if i = i0 then w ((rowp i).toNat + u) * x ((b:ℤ) * cols (rowp i + u) + k0) else 0)
      = if i = i0
        then ∑ u ∈ Finset.range (rowp (i+1) - rowp i).toNat,
          w ((rowp i).toNat + u) * x ((b:ℤ) * cols (rowp i + u) + k0)
        else 0 := by
    intro i _
    by_cases hii : i = i0
    · simp [hii]
    · simp [hii]
  rw [Finset.sum_congr rfl houter, Finset.sum_ite_eq' (Finset.range nrows) i0
    (fun i => ∑ u ∈ Finset.range (rowp (i+1) - rowp i).toNat,
      w ((rowp i).toNat + u) * x ((b:ℤ) * cols (rowp i + u) + k0)),
    if_pos (Finset.mem_range.mpr hi)]

theorem specMultAddSum_frame (b nrows : ℕ) (rowp : ℕ → ℤ) (cols : ℤ → ℤ) (w : ℕ → ℚ)
    (x : ℤ → ℚ) (q : ℤ) (hq : ∀ (i k : ℕ), i < nrows → k < b → q ≠ (b:ℤ)*i + k) :
    specMultAddSum b nrows rowp cols w x q = 0 := by
  unfold specMultAddSum
  refine Finset.sum_eq_zero (fun i hi => Finset.sum_eq_zero (fun u _ =>
    Finset.sum_eq_zero (fun k hk => ?_)))
  exact if_neg (hq i k (Finset.mem_range.mp hi) (Finset.mem_range.mp hk))

theorem csr_kernel_eval (b : ℕ) (colRows : List (List ℤ)) (wRows : List (List ℚ))
    (x y : ℤ → ℚ) (i0 k0 : ℕ) (hi : i0 < colRows.length) (hk : k0 < b)
    (hll : ∀ j, j < colRows.length → (wRows.getD j []).length = (colRows.getD j []).length)
    (hlen : wRows.length = colRows.length) :
    selectMultAdd b b colRows.length
      (listF (csrRowp (colRows.map List.length)))
      (colsF colRows.flatten) (wF wRows.flatten) x y ((b:ℤ)*i0+k0)
      = y ((b:ℤ)*i0+k0)
        + ∑ u ∈ Finset.range (colRows.getD i0 []).length,
            (wRows.getD i0 []).getD u 0 * x ((b:ℤ) * (colRows.getD i0 []).getD u 0 + k0) := by
  have hL : (colRows.map List.length).length = colRows.length := List.length_map _ _
  rw [selectMultAdd_eq_gen,
    multAddGen_acc b colRows.length _ _ _ x y (csrRowp_zero _)
      (fun t ht => csrRowp_mono _ t (by omega)),
    specMultAddSum_at b colRows.length _ _ _ x i0 k0 hi hk]
  congr 1
  have hlensI : (colRows.map List.length).getD i0 0 = (colRows.getD i0 []).length := by
    rw [List.getD_eq_getElem _ _ (by omega), List.getElem_map,
      List.getD_eq_getElem _ _ hi]
  have hrlen : (listF (csrRowp (colRows.map List.length)) (i0+1)
      - listF (csrRowp (colRows.map List.length)) i0).toNat
      = (colRows.getD i0 []).length := by
    rw [csrRowp_rlen _ i0 (by omega), hlensI]
  rw [hrlen]
  apply Finset.sum_congr rfl
  intro u hu
  have hu' := Finset.mem_range.mp hu
  have hoff : (listF (csrRowp (colRows.map List.length)) i0).toNat
      = ((colRows.map List.length).take i0).sum := csrRowp_toNat _ i0 (by omega)
  have hoffI : (listF (csrRowp (colRows.map List.length)) i0 + (u:ℤ)).toNat
      = ((colRows.map List.length).take i0).sum + u := by
    have h1 : 0 ≤ listF (csrRowp (colRows.map List.length)) i0 := by
      unfold listF
      rw [csrRowp_getD _ i0 (by omega)]
      positivity
    omega
  have hwmap : wRows.map List.length = colRows.map List.length := by
    apply List.ext_getElem (by rw [List.length_map, List.length_map, hlen])
    intro j h1 h2
    rw [List.getElem_map, List.getElem_map]
    have hj : j < colRows.length := by simpa using h2
    have := hll j hj
    rw [List.getD_eq_getElem _ _ (by omega), List.getD_eq_getElem _ _ hj] at this
    exact this
  have hcols : colsF colRows.flatten (listF (csrRowp (colRows.map List.length)) i0 + (u:ℤ))
      = (colRows.getD i0 []).getD u 0 := by
    unfold colsF
    rw [hoffI]
    exact flatten_getD 0 colRows i0 hi u hu'
  have hws : wF wRows.flatten ((listF (csrRowp (colRows.map List.length)) i0).toNat + u)
      = (wRows.getD i0 []).getD u 0 := by
    unfold wF
    rw [hoff, ← hwmap]
    apply flatten_getD 0 wRows i0 (by omega) u
    rw [hll i0 hi]
    exact hu'
  rw [hcols, hws]

theorem csr_kernel_frame (b : ℕ) (colRows : List (List ℤ)) (wRows : List (List ℚ))
    (x y : ℤ → ℚ) (q : ℤ)
    (hq : ∀ (i k : ℕ), i < colRows.length → k < b → q ≠ (b:ℤ)*i + k) :
    selectMultAdd b b colRows.length
      (listF (csrRowp (colRows.map List.length)))
      (colsF colRows.flatten) (wF wRows.flatten) x y q = y q := by
  rw [selectMultAdd_eq_gen,
    multAddGen_acc b colRows.length _ _ _ x y (csrRowp_zero _)
      (fun t ht => csrRowp_mono _ t (by simpa using ht)),
    specMultAddSum_frame b colRows.length _ _ _ x q hq, add_zero]

/-! ## Evaluating the apply operations on a finalised operator -/

theorem diagWRow_length (c : FinCfg) (i : ℕ) :
    (diagWRow c i).length = (diagColsG c i).length := by
  by_cases h : rowWSum c i = 0 <;> simp [diagWRow, preDiagW, h]

theorem extWRow_length (c : FinCfg) (i : ℕ) :
    (extWRow c i).length = (extColsG c i).length := by
  by_cases h : rowWSum c i = 0 <;> simp [extWRow, preExtW, h]

theorem mult_some (c : FinCfg) (b : ℕ) (xg outv xe : ℤ → ℚ) :
    mult (opOfCfg c b) xg outv xe
      = (false,
          selectMultAdd b b (finalizeRows c).N (listF (finalizeRows c).ext_rowp)
            (colsF (finalizeRows c).ext_cols) (wF (finalizeRows c).ext_weights)
            (gatherExt b (finalizeRows c).ext_vars xg)
            (selectMultAdd b b (finalizeRows c).N (listF (finalizeRows c).rowp)
              (colsF (finalizeRows c).cols) (wF (finalizeRows c).weights)
              (localView b c.inLo xg) (fun _ => 0)),
          gatherExt b (finalizeRows c).ext_vars xg) := rfl

theorem multAdd_some (c : FinCfg) (b : ℕ) (xg addv outv xe : ℤ → ℚ) (aliased : Bool) :
    multAdd (opOfCfg c b) xg addv outv aliased xe
      = (false,
          selectMultAdd b b (finalizeRows c).N (listF (finalizeRows c).ext_rowp)
            (colsF (finalizeRows c).ext_cols) (wF (finalizeRows c).ext_weights)
            (gatherExt b (finalizeRows c).ext_vars xg)
            (selectMultAdd b b (finalizeRows c).N (listF (finalizeRows c).rowp)
              (colsF (finalizeRows c).cols) (wF (finalizeRows c).weights)
              (localView b c.inLo xg) (if aliased then outv else addv)),
          gatherExt b (finalizeRows c).ext_vars xg) := rfl

theorem finmat_diag_eval (c : FinCfg) (b : ℕ) (x y : ℤ → ℚ) (i0 k0 : ℕ)
    (hi : i0 < c.N) (hk : k0 < b) :
    selectMultAdd b b (finalizeRows c).N (listF (finalizeRows c).rowp)
      (colsF (finalizeRows c).cols) (wF (finalizeRows c).weights) x y ((b:ℤ)*i0+k0)
      = y ((b:ℤ)*i0+k0) + applyRowDiag c b x i0 (k0:ℤ) := by
  have hmapeq : ((List.range c.N).map (diagColsLoc c)).map List.length
      = (List.range c.N).map (fun i => (diagColsG c i).length) := by
    rw [List.map_map]
    apply List.map_congr_left
    intro i _
    simp [diagColsLoc]
  have hN : (finalizeRows c).N = ((List.range c.N).map (diagColsLoc c)).length := by
    simp [finalizeRows]
  have hrowp : (finalizeRows c).rowp
      = csrRowp (((List.range c.N).map (diagColsLoc c)).map List.length) := by
    rw [hmapeq]
    rfl
  have hcols : (finalizeRows c).cols = ((List.range c.N).map (diagColsLoc c)).flatten := rfl
  have hws : (finalizeRows c).weights = ((List.range c.N).map (diagWRow c)).flatten := rfl
  rw [hN, hrowp, hcols, hws,
    csr_kernel_eval b ((List.range c.N).map (diagColsLoc c)) ((List.range c.N).map (diagWRow c))
      x y i0 k0 (by simpa using hi) hk
      (fun j hj => by
        rw [getD_map_range _ _ _ _ (by simpa using hj),
          getD_map_range _ _ _ _ (by simpa using hj)]
        rw [diagWRow_length]
        simp [diagColsLoc])
      (by simp)]
  rw [getD_map_range _ _ _ _ hi, getD_map_range _ _ _ _ hi]
  unfold applyRowDiag
  rw [show (diagColsLoc c i0).length = (diagColsG c i0).length from by simp [diagColsLoc]]

theorem finmat_ext_eval (c : FinCfg) (b : ℕ) (x y : ℤ → ℚ) (i0 k0 : ℕ)
    (hi : i0 < c.N) (hk : k0 < b) :
    selectMultAdd b b (finalizeRows c).N (listF (finalizeRows c).ext_rowp)
      (colsF (finalizeRows c).ext_cols) (wF (finalizeRows c).ext_weights) x y ((b:ℤ)*i0+k0)
      = y ((b:ℤ)*i0+k0) + applyRowExt c b x i0 (k0:ℤ) := by
  have hmapeq : ((List.range c.N).map (extColsIdx c)).map List.length
      = (List.range c.N).map (fun i => (extColsG c i).length) := by
    rw [List.map_map]
    apply List.map_congr_left
    intro i _
    simp [extColsIdx]
  have hN : (finalizeRows c).N = ((List.range c.N).map (extColsIdx c)).length := by
    simp [finalizeRows]
  have hrowp : (finalizeRows c).ext_rowp
      = csrRowp (((List.range c.N).map (extColsIdx c)).map List.length) := by
    rw [hmapeq]
    rfl
  have hcols : (finalizeRows c).ext_cols = ((List.range c.N).map (extColsIdx c)).flatten := rfl
  have hws : (finalizeRows c).ext_weights = ((List.range c.N).map (extWRow c)).flatten := rfl
  rw [hN, hrowp, hcols, hws,
    csr_kernel_eval b ((List.range c.N).map (extColsIdx c)) ((List.range c.N).map (extWRow c))
      x y i0 k0 (by simpa using hi) hk
      (fun j hj => by
        rw [getD_map_range _ _ _ _ (by simpa using hj),
          getD_map_range _ _ _ _ (by simpa using hj)]
        rw [extWRow_length]
        simp [extColsIdx])
      (by simp)]
  rw [getD_map_range _ _ _ _ hi, getD_map_range _ _ _ _ hi]
  unfold applyRowExt
  rw [show (extColsIdx c i0).length = (extColsG c i0).length from by simp [extColsIdx]]

theorem finmat_diag_frame (c : FinCfg) (b : ℕ) (x y : ℤ → ℚ) (q : ℤ)
    (hq : ∀ (i k : ℕ), i < c.N → k < b → q ≠ (b:ℤ)*i + k) :
    selectMultAdd b b (finalizeRows c).N (listF (finalizeRows c).rowp)
      (colsF (finalizeRows c).cols) (wF (finalizeRows c).weights) x y q = y q := by
  have hmapeq : ((List.range c.N).map (diagColsLoc c)).map List.length
      = (List.range c.N).map (fun i => (diagColsG c i).length) := by
    rw [List.map_map]
    apply List.map_congr_left
    intro i _
    simp [diagColsLoc]
  have hN : (finalizeRows c).N = ((List.range c.N).map (diagColsLoc c)).length := by
    simp [finalizeRows]
  have hrowp : (finalizeRows c).rowp
      = csrRowp (((List.range c.N).map (diagColsLoc c)).map List.length) := by
    rw [hmapeq]
    rfl
  rw [hN, hrowp, show (finalizeRows c).cols = ((List.range c.N).map (diagColsLoc c)).flatten
      from rfl,
    show (finalizeRows c).weights = ((List.range c.N).map (diagWRow c)).flatten from rfl]
  exact csr_kernel_frame b _ _ x y q (fun i k hik hkb => hq i k (by simpa using hik) hkb)

theorem finmat_ext_frame (c : FinCfg) (b : ℕ) (x y : ℤ → ℚ) (q : ℤ)
    (hq : ∀ (i k : ℕ), i < c.N → k < b → q ≠ (b:ℤ)*i + k) :
    selectMultAdd b b (finalizeRows c).N (listF (finalizeRows c).ext_rowp)
      (colsF (finalizeRows c).ext_cols) (wF (finalizeRows c).ext_weights) x y q = y q := by
  have hmapeq : ((List.range c.N).map (extColsIdx c)).map List.length
      = (List.range c.N).map (fun i => (extColsG c i).length) := by
    rw [List.map_map]
    apply List.map_congr_left
    intro i _
    simp [extColsIdx]
  have hN : (finalizeRows c).N = ((List.range c.N).map (extColsIdx c)).length := by
    simp [finalizeRows]
  have hrowp : (finalizeRows c).ext_rowp
      = csrRowp (((List.range c.N).map (extColsIdx c)).map List.length) := by
    rw [hmapeq]
    rfl
  rw [hN, hrowp, show (finalizeRows c).ext_cols = ((List.range c.N).map (extColsIdx c)).flatten
      from rfl,
    show (finalizeRows c).ext_weights = ((List.range c.N).map (extWRow c)).flatten from rfl]
  exact csr_kernel_frame b _ _ x y q (fun i k hik hkb => hq i k (by simpa using hik) hkb)

theorem rowEntries_mem {c : FinCfg} {i : ℕ} {e : ℤ × ℚ} (he : e ∈ rowEntries c i) :
    ∃ r, r ∈ c.onRows ++ c.inRows ∧ e ∈ r.entries := by
  unfold rowEntries at he
  rw [List.mem_flatten] at he
  rcases he with ⟨l, hl, hel⟩
  rw [List.mem_map] at hl
  rcases hl with ⟨r, hr, rfl⟩
  have hr2 := (List.mem_filter.mp hr).1
  unfold contribs validRows at hr2
  rw [List.mem_append] at hr2
  rcases hr2 with h | h
  · exact ⟨r, List.mem_append.mpr (Or.inl (List.mem_filter.mp h).1), hel⟩
  · exact ⟨r, List.mem_append.mpr (Or.inr (List.mem_filter.mp h).1), hel⟩

/-! ## Claim C5: partition-of-unity preservation -/

/-- C5: on any finalised operator in which every local output row has
fan-in at least 1 and all staged weights are positive, mult applied to
the all-ones input vector produces the value 1 at every component of
every owned output row — exactly, as a consequence of the row
normalisation (scalars are exact rationals in this model). -/
theorem claim5_partition_of_unity (c : FinCfg) (b : ℕ) (y0 xe : ℤ → ℚ)
    (hfan : ∀ i, i < c.N → rowEntries c i ≠ [])
    (hpos : ∀ r ∈ c.onRows ++ c.inRows, ∀ e ∈ r.entries, 0 < e.2)
    (i : ℕ) (hi : i < c.N) (k : ℕ) (hk : k < b) :
    (mult (opOfCfg c b) (fun _ => 1) y0 xe).2.1 ((b:ℤ)*i+k) = 1 := by
  have hSpos : 0 < rowWSum c i := by
    rw [rowWSum_eq_raw]
    apply List.sum_pos
    · intro a ha
      rcases List.mem_map.mp ha with ⟨e, he, rfl⟩
      rcases rowEntries_mem he with ⟨r, hr, her⟩
      exact hpos r hr e her
    · simp only [ne_eq, List.map_eq_nil_iff]
      exact hfan i hi
  rw [mult_some]
  dsimp only
  rw [finmat_ext_eval c b _ _ i k hi hk, finmat_diag_eval c b _ _ i k hi hk]
  have hxin : localView b c.inLo (fun _ => (1:ℚ)) = fun _ => 1 := rfl
  have hxext : gatherExt b (finalizeRows c).ext_vars (fun _ => (1:ℚ)) = fun _ => 1 := rfl
  rw [hxin, hxext]
  have hd : applyRowDiag c b (fun _ => 1) i (k:ℤ) = (diagWRow c i).sum := by
    unfold applyRowDiag
    rw [show (diagColsG c i).length = (diagWRow c i).length from (diagWRow_length c i).symm]
    simp only [mul_one]
    exact list_sum_getD _
  have he : applyRowExt c b (fun _ => 1) i (k:ℤ) = (extWRow c i).sum := by
    unfold applyRowExt
    rw [show (extColsG c i).length = (extWRow c i).length from (extWRow_length c i).symm]
    simp only [mul_one]
    exact list_sum_getD _
  rw [hd, he, zero_add]
  exact normalized_row_sum c i (ne_of_gt hSpos)

/-- C5 witness: the all-ones vector on the concrete operator `cW`
(block size 1). -/
theorem claim5_witness :
    (∀ i, i < cW.N → rowEntries cW i ≠ []) ∧
    (∀ r ∈ cW.onRows ++ cW.inRows, ∀ e ∈ r.entries, 0 < e.2) ∧
    (mult (opOfCfg cW 1) (fun _ => 1) (fun _ => 9) (fun _ => 0)).2.1 ((1:ℤ)*0+0) = 1 :=
  ⟨by decide, by decide,
    claim5_partition_of_unity cW 1 (fun _ => 9) (fun _ => 0) (by decide) (by decide)
      0 (by decide) 0 (by decide)⟩

/-! ## Claim C8: multAdd semantics with aliasing -/

/-- C8: on a finalised operator, multAdd computes `y := z + P x`: when
the add vector and the output vector are distinct objects the add vector
is first copied into the output, and when they are the same object no
copy happens and the accumulation is in place; in both cases every owned
output component `b·i+k` receives `z` plus the diagonal and external row
products, and components outside the owned rows are exactly the copied
base. -/
theorem claim8_multAdd_semantics (c : FinCfg) (b : ℕ) (xg z y0 xe : ℤ → ℚ) :
    (∀ i k : ℕ, i < c.N → k < b →
      (multAdd (opOfCfg c b) xg z y0 false xe).2.1 ((b:ℤ)*i+k)
        = z ((b:ℤ)*i+k)
          + applyRowDiag c b (localView b c.inLo xg) i (k:ℤ)
          + applyRowExt c b (gatherExt b (extVarsOf c) xg) i (k:ℤ)) ∧
    (∀ i k : ℕ, i < c.N → k < b →
      (multAdd (opOfCfg c b) xg y0 y0 true xe).2.1 ((b:ℤ)*i+k)
        = y0 ((b:ℤ)*i+k)
          + applyRowDiag c b (localView b c.inLo xg) i (k:ℤ)
          + applyRowExt c b (gatherExt b (extVarsOf c) xg) i (k:ℤ)) ∧
    (∀ q : ℤ, (∀ i k : ℕ, i < c.N → k < b → q ≠ (b:ℤ)*i+k) →
      (multAdd (opOfCfg c b) xg z y0 false xe).2.1 q = z q) := by
  refine ⟨?_, ?_, ?_⟩
  · intro i k hi hk
    rw [multAdd_some]
    dsimp only
    rw [finmat_ext_eval c b _ _ i k hi hk, finmat_diag_eval c b _ _ i k hi hk]
    rfl
  · intro i k hi hk
    rw [multAdd_some]
    dsimp only
    rw [finmat_ext_eval c b _ _ i k hi hk, finmat_diag_eval c b _ _ i k hi hk]
    rfl
  · intro q hq
    rw [multAdd_some]
    dsimp only
    rw [finmat_ext_frame c b _ _ q hq, finmat_diag_frame c b _ _ q hq]
    rfl

/-- C8 witness: instantiated on the concrete operator `cW` at row 0,
component 0, with distinct add and output vectors. -/
theorem claim8_witness :
    0 < cW.N ∧
    (multAdd (opOfCfg cW 1) (fun _ => 2) (fun _ => 3) (fun _ => 4) false (fun _ => 0)).2.1
        ((1:ℤ)*0+0)
      = (fun _ : ℤ => (3:ℚ)) ((1:ℤ)*0+0)
        + applyRowDiag cW 1 (localView 1 cW.inLo (fun _ => 2)) 0 ((0:ℕ):ℤ)
        + applyRowExt cW 1 (gatherExt 1 (extVarsOf cW) (fun _ => 2)) 0 ((0:ℕ):ℤ) :=
  ⟨by decide,
    (claim8_multAdd_semantics cW 1 (fun _ => 2) (fun _ => 3) (fun _ => 4)
      (fun _ => 0)).1 0 0 (by decide) (by decide)⟩

end BVI
